import Mathlib

/-!
# Verification of the `validated_dc` runtime data-validation engine

A shallow embedding, in Lean 4, of the Python module `validated_dc.py`
(classes `BasicValidation`, `InstanceValidation`, `TypingValidation`,
`ValidatedDC` and the module-level helpers).  Python values, type
annotations and the per-field / per-instance mutable validation state are
made explicit; the chain of overriding `_is_instance__vdc` methods is
flattened into one dispatch function, exactly in the source's resolution
order (typing layer, then instance layer, then basic layer).

Python strings are modelled as `List Char` (slicing on `str` becomes list
`take` / `drop`), Python `int` as `Int`, dictionaries as association lists
with distinct keys (the only way Python builds them here).
-/

namespace VDC

/-- Identifier of a user-defined dataclass deriving from the validated
base class (a `ValidatedDC` record type). -/
abbrev RecordId := Nat

/-- Concrete (non-generic) classes that appear as annotations in the model:
the built-in types used by the repository's own examples and tests. -/
inductive PrimTy where
  | intT
  | strT
  | boolT
  | noneT
  | listT
deriving DecidableEq, Repr

/-- Scalar (hashable) Python values.  Dataclass field *defaults* and
`Literal` arguments are restricted to these: Python itself forbids
mutable (unhashable) defaults, and `typing.Literal` only accepts
hashable literal values. -/
inductive SVal where
  | sint (n : Int)
  | sstr (s : List Char)
  | sbool (b : Bool)
  | snone
deriving DecidableEq, Repr

/-- Runtime Python values flowing through the validator: scalars, native
lists, dictionaries (association lists) and dataclass instances (record
id together with the `field name → value` map, in declared order). -/
inductive Value where
  | vint (n : Int)
  | vstr (s : List Char)
  | vbool (b : Bool)
  | vnone
  | vlist (items : List Value)
  | vdict (entries : List (String × Value))
  | vinst (rid : RecordId) (flds : List (String × Value))
deriving Repr

/-- Type annotations (type expressions) of fields.  `union` covers both
`typing.Union` and `typing.Optional` (at runtime `Optional[X]` *is*
`Union[X, None]`).  `unsupported` stands for a generic alias of the
`typing` module that is not one of the five supported kinds (such as
`typing.Dict[str, int]`, the representative used by `annStr`). -/
inductive Ann where
  | prim (t : PrimTy)
  | record (r : RecordId)
  | union (args : List Ann)
  | listOf (elt : Ann)
  | literal (vals : List SVal)
  | anyT
  | unsupported
deriving Repr

/-- `type(value)`: the runtime class of a value. -/
inductive Ty where
  | tint
  | tstr
  | tbool
  | tnone
  | tlist
  | tdict
  | trec (r : RecordId)
deriving DecidableEq, Repr

/-- The exceptions the engine can capture into an error record:
the `TypeError` raised for an unsupported typing alias (line 352 of the
source) and the `TypeError` a dataclass constructor raises on unexpected
or missing keyword arguments. -/
inductive PyExc where
  | aliasNotSupported
  | constructBadKwargs
deriving DecidableEq, Repr

/-- `type(value)` for a model value. -/
def pyType : Value → Ty
  | .vint _ => .tint
  | .vstr _ => .tstr
  | .vbool _ => .tbool
  | .vnone => .tnone
  | .vlist _ => .tlist
  | .vdict _ => .tdict
  | .vinst r _ => .trec r

/-- Python truthiness (`bool(value)`) for the model values. -/
def truthy : Value → Bool
  | .vint n => n != 0
  | .vstr s => !s.isEmpty
  | .vbool b => b
  | .vnone => false
  | .vlist items => !items.isEmpty
  | .vdict entries => !entries.isEmpty
  | .vinst _ _ => true

/-! ## `get_value_repr` (source lines 62-73)

`MAX_REPR = 30`; a value's textual representation is `str(value)`,
truncated past `MAX_REPR` characters to `result[:MAX_REPR-4] + '...' +
result[-1]`.  The function below receives `str(value)` as a `List Char`;
Python slicing `[:k]` is `take k` and `[-1]` is the last character,
`drop (length - 1)` on a non-empty list. -/

/-- `MAX_REPR`, the maximal length of a stored value representation. -/
def maxRepr : Nat := 30

/-- `get_value_repr` applied to `str(value)`: truncate to at most
`maxRepr` characters, keeping the first `maxRepr - 4`, an ellipsis and
the final character. -/
def getValueRepr (result : List Char) : List Char :=
  if maxRepr < result.length then
    result.take (maxRepr - 4) ++ ['.', '.', '.'] ++ result.drop (result.length - 1)
  else
    result

theorem getValueRepr_length_le (s : List Char) : (getValueRepr s).length ≤ maxRepr := by
  unfold getValueRepr maxRepr
  split
  · simp only [List.length_append, List.length_take, List.length_drop, List.length_cons,
      List.length_nil]
    omega
  · omega

theorem getValueRepr_of_le (s : List Char) (h : s.length ≤ maxRepr) : getValueRepr s = s := by
  unfold getValueRepr
  split
  · omega
  · rfl

theorem getValueRepr_of_gt (s : List Char) (h : maxRepr < s.length) :
    getValueRepr s = s.take 26 ++ ['.', '.', '.'] ++ s.drop (s.length - 1) := by
  unfold getValueRepr
  split
  · rfl
  · omega

/-! ## Record-type environment

The host language's reflection layer: for every record type, its ordered
field declarations (`dataclasses.fields`), and its class name (used by
`repr` of an instance).  A field declaration carries the field name, the
annotated type expression and the optional default (Python forbids
mutable defaults, so a default is always a scalar). -/

/-- One dataclass field declaration: name, annotation, optional default. -/
structure FieldDecl where
  fname : String
  ann : Ann
  dflt : Option SVal

/-- The static environment of declared record types. -/
structure Env where
  recs : RecordId → List FieldDecl
  recName : RecordId → List Char

/-- Embed a scalar into `Value`. -/
def svalToValue : SVal → Value
  | .sint n => .vint n
  | .sstr s => .vstr s
  | .sbool b => .vbool b
  | .snone => .vnone

/-- The apostrophe character, written by code point to keep source text
plain. -/
def quoteC : Char := Char.ofNat 39

/-- Join string pieces with a separator. -/
def joinSep (sep : List Char) : List (List Char) → List Char
  | [] => []
  | [p] => p
  | p :: rest => p ++ sep ++ joinSep sep rest

/-- Python `repr(value)` for the model values (strings quoted, containers
rendered recursively, dataclass instances as `Name(field=value, ...)`). -/
def pyRepr (env : Env) : Value → List Char
  | .vint n => (toString n).data
  | .vstr s => quoteC :: (s ++ [quoteC])
  | .vbool b => if b then ("True").data else ("False").data
  | .vnone => ("None").data
  | .vlist items =>
      '[' :: (joinSep (", ").data (items.attach.map fun ⟨x, _⟩ => pyRepr env x) ++ [']'])
  | .vdict entries =>
      '\x7b' :: (joinSep (", ").data (entries.attach.map fun ⟨⟨k, w⟩, _⟩ =>
        (quoteC :: (k.data ++ [quoteC])) ++ (": ").data ++ pyRepr env w) ++ ['\x7d'])
  | .vinst r flds =>
      env.recName r ++ ('(' :: (joinSep (", ").data (flds.attach.map fun ⟨⟨k, w⟩, _⟩ =>
        k.data ++ ('=' :: pyRepr env w)) ++ [')']))
decreasing_by
  all_goals simp_wf
  all_goals rename_i hmem
  · have h1 := List.sizeOf_lt_of_mem hmem
    omega
  · have h1 := List.sizeOf_lt_of_mem hmem
    simp only [Prod.mk.sizeOf_spec] at h1
    omega
  · have h1 := List.sizeOf_lt_of_mem hmem
    simp only [Prod.mk.sizeOf_spec] at h1
    omega

/-- Python `str(value)`: the string itself for a string, `repr` otherwise. -/
def pyStr (env : Env) (v : Value) : List Char :=
  match v with
  | .vstr s => s
  | _ => pyRepr env v

/-- `get_value_repr(value)` as the source uses it on an arbitrary value. -/
def reprOf (env : Env) (v : Value) : List Char :=
  getValueRepr (pyStr env v)

/-! ## The string-based alias classifier (source lines 306-313, 376-393)

`STR_ALIASES` maps each supported alias to its `str()`: `str(List)` is
`typing.List`, and so on.  `_is_typing_alias` tests whether
`str(annotation)` starts with any alias's module prefix (each prefix is
the text before the first dot, i.e. `typing`); `_is_supported_alias`
tests whether it starts with one of the five full alias strings. -/

def strListA : List Char := ("typing.List").data

def strUnionA : List Char := ("typing.Union").data

def strOptionalA : List Char := ("typing.Optional").data

def strAnyA : List Char := ("typing.Any").data

def strLiteralA : List Char := ("typing.Literal").data

/-- The values of `STR_ALIASES`, in the source's insertion order. -/
def strAliases : List (List Char) := [strListA, strUnionA, strOptionalA, strAnyA, strLiteralA]

/-- `str(annotation)` for a model annotation, to the extent the source
consumes it: every use is a `startswith` against `typing`-prefixed
strings, so the bracketed argument text is rendered opaquely as `[...]`.
At runtime `Optional[X]` *is* `Union[X, None]` and prints as
`typing.Optional[X]`; both prefixes select the same union matcher, so
`union` is rendered uniformly with the `typing.Union` prefix.
`unsupported` is rendered as the concrete unsupported combinator
`typing.Dict[str, int]` the model takes as representative. -/
def annStr (env : Env) : Ann → List Char
  | .prim .intT => ("<class ").data ++ (quoteC :: ("int").data) ++ [quoteC, '>']
  | .prim .strT => ("<class ").data ++ (quoteC :: ("str").data) ++ [quoteC, '>']
  | .prim .boolT => ("<class ").data ++ (quoteC :: ("bool").data) ++ [quoteC, '>']
  | .prim .noneT => ("<class ").data ++ (quoteC :: ("NoneType").data) ++ [quoteC, '>']
  | .prim .listT => ("<class ").data ++ (quoteC :: ("list").data) ++ [quoteC, '>']
  | .record r => ("<class ").data ++ (quoteC :: env.recName r) ++ [quoteC, '>']
  | .union _ => strUnionA ++ ("[...]").data
  | .listOf _ => strListA ++ ("[...]").data
  | .literal _ => strLiteralA ++ ("[...]").data
  | .anyT => strAnyA
  | .unsupported => ("typing.Dict[str, int]").data

/-- `TypingValidation._is_typing_alias` (lines 376-383). -/
def isTypingAlias (s : List Char) : Bool :=
  (strAliases.map fun al => al.takeWhile fun c => c ≠ '.').any fun p => p.isPrefixOf s

/-- `TypingValidation._is_supported_alias` (lines 385-393). -/
def isSupportedAlias (s : List Char) : Bool :=
  strAliases.any fun al => al.isPrefixOf s

/-! ## Structural measures and `dataclasses.asdict`

`asdict` recursively decomposes a dataclass instance into a plain
mapping, converting nested instances inside fields, lists and
dictionaries as well; it preserves the data's size, which is what bounds
the recursion depth of the validator. -/

mutual

/-- Size of a value; dictionaries and instances weigh the same so that
`asdict` is size-preserving. -/
def sizeV : Value → Nat
  | .vint _ => 1
  | .vstr _ => 1
  | .vbool _ => 1
  | .vnone => 1
  | .vlist items => 1 + sizeL items
  | .vdict entries => 3 + sizeF entries
  | .vinst _ flds => 3 + sizeF flds

def sizeL : List Value → Nat
  | [] => 0
  | v :: rest => sizeV v + sizeL rest

def sizeF : List (String × Value) → Nat
  | [] => 0
  | kv :: rest => sizeV kv.2 + sizeF rest

end

mutual

/-- `dataclasses.asdict` on a value occurring inside an instance. -/
def asdictV : Value → Value
  | .vint n => .vint n
  | .vstr s => .vstr s
  | .vbool b => .vbool b
  | .vnone => .vnone
  | .vlist items => .vlist (asdictL items)
  | .vdict entries => .vdict (asdictF entries)
  | .vinst _ flds => .vdict (asdictF flds)

def asdictL : List Value → List Value
  | [] => []
  | v :: rest => asdictV v :: asdictL rest

def asdictF : List (String × Value) → List (String × Value)
  | [] => []
  | kv :: rest => (kv.1, asdictV kv.2) :: asdictF rest

end

mutual

theorem sizeV_asdictV : ∀ v, sizeV (asdictV v) = sizeV v
  | .vint _ => rfl
  | .vstr _ => rfl
  | .vbool _ => rfl
  | .vnone => rfl
  | .vlist items => by simp only [asdictV, sizeV, sizeL_asdictL]
  | .vdict entries => by simp only [asdictV, sizeV, sizeF_asdictF]
  | .vinst _ flds => by simp only [asdictV, sizeV, sizeF_asdictF]

theorem sizeL_asdictL : ∀ l, sizeL (asdictL l) = sizeL l
  | [] => rfl
  | v :: rest => by simp only [asdictL, sizeL, sizeV_asdictV, sizeL_asdictL]

theorem sizeF_asdictF : ∀ l, sizeF (asdictF l) = sizeF l
  | [] => rfl
  | kv :: rest => by simp only [asdictF, sizeF, sizeV_asdictV, sizeF_asdictF]

end

theorem sizeV_pos : ∀ v, 1 ≤ sizeV v
  | .vint _ => le_refl 1
  | .vstr _ => le_refl 1
  | .vbool _ => le_refl 1
  | .vnone => le_refl 1
  | .vlist _ => by simp only [sizeV]; omega
  | .vdict _ => by simp only [sizeV]; omega
  | .vinst _ _ => by simp only [sizeV]; omega

mutual

/-- Size of an annotation (arguments of a union counted by `sizeAL`). -/
def sizeA : Ann → Nat
  | .prim _ => 1
  | .record _ => 2
  | .union args => 1 + sizeAL args
  | .listOf elt => 1 + sizeA elt
  | .literal _ => 1
  | .anyT => 1
  | .unsupported => 1

def sizeAL : List Ann → Nat
  | [] => 0
  | a :: rest => sizeA a + sizeAL rest

end

theorem sizeA_pos : ∀ a, 1 ≤ sizeA a
  | .prim _ => le_refl 1
  | .record _ => by simp only [sizeA]; omega
  | .union _ => by simp only [sizeA]; omega
  | .listOf _ => by simp only [sizeA]; omega
  | .literal _ => le_refl 1
  | .anyT => le_refl 1
  | .unsupported => le_refl 1

/-- Largest value size in an association list. -/
def maxF : List (String × Value) → Nat
  | [] => 0
  | kv :: rest => max (sizeV kv.2) (maxF rest)

theorem sizeV_lookup_le {d : List (String × Value)} {k : String} {v : Value}
    (h : d.lookup k = some v) : sizeV v ≤ sizeF d := by
  induction d with
  | nil => simp [List.lookup] at h
  | cons kv rest ih =>
      cases hk : (k == kv.1) with
      | true =>
          simp only [List.lookup, hk, Option.some.injEq] at h
          subst h
          simp only [sizeF]
          omega
      | false =>
          simp only [List.lookup, hk] at h
          have := ih h
          simp only [sizeF]
          omega

theorem sizeV_lookup_le_maxF {d : List (String × Value)} {k : String} {v : Value}
    (h : d.lookup k = some v) : sizeV v ≤ maxF d := by
  induction d with
  | nil => simp [List.lookup] at h
  | cons kv rest ih =>
      cases hk : (k == kv.1) with
      | true =>
          simp only [List.lookup, hk, Option.some.injEq] at h
          subst h
          simp only [maxF]
          omega
      | false =>
          simp only [List.lookup, hk] at h
          have := ih h
          simp only [maxF]
          omega

theorem sizeV_lookupD_le (d : List (String × Value)) (k : String) :
    sizeV ((d.lookup k).getD .vnone) ≤ maxF d + 1 := by
  cases h : d.lookup k with
  | none => simp [sizeV]
  | some v =>
      simp only [Option.getD_some]
      have := sizeV_lookup_le_maxF h
      omega

/-! ## Field Errors (the error dataclasses of the source)

`BasicValidationError` (54-59), `InstanceValidationError` (212-214,
adding the nested error report), `TypingValidationError` (316-318),
`ListValidationError` (321-326) and `LiteralValidationError` (329-333).
All are plain data, never raised. -/

mutual

/-- One recorded Field Error. -/
inductive FieldErr where
  | basicE (valueRepr : List Char) (valueType : Ty) (ann : Ann) (exc : Option PyExc)
  | instE (valueRepr : List Char) (valueType : Ty) (ann : Ann) (exc : Option PyExc)
      (nested : Option ErrReport)
  | typingE (valueRepr : List Char) (valueType : Ty) (ann : Ann) (exc : Option PyExc)
  | listE (itemIndex : Nat) (itemRepr : List Char) (itemType : Ty) (ann : Ann)
  | literalE (litRepr : List Char) (litType : Ty) (ann : Ann)

/-- `_errors__vdc`: field name → that field's error list, in field order;
a field with no errors is never present. -/
inductive ErrReport where
  | nil
  | cons (fname : String) (errs : List FieldErr) (rest : ErrReport)

end

/-- The annotation a Field Error was recorded against. -/
def FieldErr.errAnn : FieldErr → Ann
  | .basicE _ _ a _ => a
  | .instE _ _ a _ _ => a
  | .typingE _ _ a _ => a
  | .listE _ _ _ a => a
  | .literalE _ _ a => a

/-- Emptiness of an error report (`bool(self._errors__vdc)` is `False`). -/
def ErrReport.isEmpty : ErrReport → Bool
  | .nil => true
  | .cons _ _ _ => false

/-- The per-field transient state the source keeps on `self` during one
field's check: `_field_errors__vdc` (the accumulating error list),
`_replacement__vdc` (`none` models Python `None`; the consumed-sentinel
`False` is `some (.vbool false)`), and `_typing_field_error`. -/
structure FState where
  fieldErrors : List FieldErr
  repl : Option Value
  typingErr : Option FieldErr

/-- Append an error to the current field's error list. -/
def appendErr (s : FState) (e : FieldErr) : FState :=
  { s with fieldErrors := s.fieldErrors ++ [e] }

/-- Lines 359-372: the wrapper around a selected alias method.  Before
the call `_typing_field_error` was set to `None`; on a `False` result a
pending `_typing_field_error` is appended to the field's errors and
cleared. -/
def finishAlias (r : Bool × FState) : Bool × FState :=
  if r.1 then r
  else
    match r.2.typingErr with
    | some e => (false, { r.2 with fieldErrors := r.2.fieldErrors ++ [e], typingErr := none })
    | none => r

/-- Python `==` between a runtime value and a scalar literal (`bool` is
an `int` subtype: `True == 1`). -/
def pyEqSV : Value → SVal → Bool
  | .vint n, .sint m => n == m
  | .vint n, .sbool b => n == (if b then 1 else 0)
  | .vbool b, .sint m => (if b then (1 : Int) else 0) == m
  | .vbool b, .sbool c => b == c
  | .vstr s, .sstr t => s == t
  | .vnone, .snone => true
  | _, _ => false

/-- `isinstance(value, t)` for a concrete built-in class (`bool` is a
subclass of `int`). -/
def primIsInstance : Value → PrimTy → Bool
  | .vint _, .intT => true
  | .vbool _, .intT => true
  | .vbool _, .boolT => true
  | .vstr _, .strT => true
  | .vnone, .noneT => true
  | .vlist _, .listT => true
  | _, _ => false

/-- `isinstance(value, annotation)` for the concrete-class annotations
that can reach the basic layer: the typing layer has already intercepted
every `typing` alias, so `isinstance` never raises here; record types
are compared by identity (the model has no inheritance between user
record types). -/
def rawIsInstance (v : Value) (a : Ann) : Bool :=
  match a with
  | .prim t => primIsInstance v t
  | .record R =>
      match v with
      | .vinst R2 _ => R2 == R
      | _ => false
  | _ => false

/-- `BasicValidation._is_instance__vdc` (lines 135-153): the plain
`isinstance` check, appending a `BasicValidationError` on failure (with
no captured exception, since no reachable annotation makes `isinstance`
raise). -/
def basicCheck (env : Env) (v : Value) (a : Ann) (s : FState) : Bool × FState :=
  if rawIsInstance v a then (true, s)
  else (false, appendErr s (.basicE (reprOf env v) (pyType v) a none))

/-- A validated dataclass instance: its record type, its current field
values (in declared order) and its last computed error report. -/
structure Inst where
  rid : RecordId
  vals : List (String × Value)
  errs : ErrReport

theorem sizeV_svalToValue (sv : SVal) : sizeV (svalToValue sv) = 1 := by
  cases sv <;> rfl

theorem maxF_initVals_le (d : List (String × Value)) (fields : List FieldDecl) :
    maxF (fields.map fun fd =>
      (fd.fname,
        match d.lookup fd.fname with
        | some v => v
        | none => svalToValue (fd.dflt.getD .snone))) ≤ sizeF d + 1 := by
  induction fields with
  | nil => simp [maxF]
  | cons fd rest ih =>
      simp only [List.map_cons, maxF]
      have h1 : sizeV (match d.lookup fd.fname with
          | some v => v
          | none => svalToValue (fd.dflt.getD .snone)) ≤ sizeF d + 1 := by
        cases h : d.lookup fd.fname with
        | some v =>
            have := sizeV_lookup_le h
            simp only [h]
            omega
        | none =>
            simp only [h, sizeV_svalToValue]
            omega
      omega

theorem sizeL_head_lt (x : Value) (rest : List Value) : sizeV x < 1 + sizeL (x :: rest) := by
  simp only [sizeL]
  omega

theorem sizeL_tail_lt (x : Value) (rest : List Value) : 1 + sizeL rest < 1 + sizeL (x :: rest) := by
  simp only [sizeL]
  have := sizeV_pos x
  omega

theorem lex3_left {a1 a2 a3 b1 b2 b3 : Nat} (h : a1 < b1) :
    Prod.Lex (· < ·) (Prod.Lex (· < ·) (· < ·)) (a1, a2, a3) (b1, b2, b3) :=
  Prod.Lex.left _ _ h

theorem lex3_mid {a1 a2 a3 b1 b2 b3 : Nat} (h1 : a1 ≤ b1) (h : a2 < b2) :
    Prod.Lex (· < ·) (Prod.Lex (· < ·) (· < ·)) (a1, a2, a3) (b1, b2, b3) := by
  rcases Nat.lt_or_ge a1 b1 with hlt | hge
  · exact Prod.Lex.left _ _ hlt
  · have heq : a1 = b1 := Nat.le_antisymm h1 hge
    subst heq
    exact Prod.Lex.right _ (Prod.Lex.left _ _ h)

theorem lex3_right {a1 a2 a3 b1 b2 b3 : Nat} (h1 : a1 ≤ b1) (h2 : a2 ≤ b2) (h : a3 < b3) :
    Prod.Lex (· < ·) (Prod.Lex (· < ·) (· < ·)) (a1, a2, a3) (b1, b2, b3) := by
  rcases Nat.lt_or_ge a1 b1 with hlt | hge
  · exact Prod.Lex.left _ _ hlt
  · have heq : a1 = b1 := Nat.le_antisymm h1 hge
    subst heq
    rcases Nat.lt_or_ge a2 b2 with hlt2 | hge2
    · exact Prod.Lex.right _ (Prod.Lex.left _ _ hlt2)
    · have heq2 : a2 = b2 := Nat.le_antisymm h2 hge2
      subst heq2
      exact Prod.Lex.right _ (Prod.Lex.right _ h)

/-! ## The validation engine

One mutual block, faithful to the source's method-resolution order:

* `isInst`: `TypingValidation._is_instance__vdc` (344-374) — the entry
  point of every value/annotation check;
* `isInstLower`: `InstanceValidation._is_instance__vdc` (241-272) — the
  record-substitution layer `isInst` falls through to;
* `recordCheck`: lines 250-270, the attempted construction from the
  (possibly `asdict`-normalized) mapping;
* `unionLoop`: `_is_union_instance` (413-425);
* `listLoop`: the element loop of `_is_list_instance` (439-461);
* `construct`: `annotation(**value)` — the dataclass keyword constructor
  followed by `__post_init__`'s `_run_validation`;
* `runFields`: `_run_validation` (181-189) together with
  `_is_field_valid` (292-300), `_try_replacing` (281-290) and
  `_save_current_field_errors` (174-179).

`runFields` reads every field's value from the values at entry of the
run; this is equivalent to `getattr` on the live instance because
dataclass field names are distinct and `_try_replacing` only ever writes
the field currently being validated.  `_typing_field_error` is modelled
as starting out `None`; the source never reads it before line 362 has
written it, so this is observationally identical.  `_is_replace__vdc` is
set to `True` by `_init_validation` and never cleared, so
`_try_replacing` reduces to its `_replacement__vdc is not None` test. -/

mutual

def isInst (env : Env) (v : Value) (a : Ann) (s : FState) : Bool × FState :=
  if isTypingAlias (annStr env a) then
    if !isSupportedAlias (annStr env a) then
      (false, appendErr s (.typingE (reprOf env v) (pyType v) a (some .aliasNotSupported)))
    else
      -- `_get_alias_method` (395-411) selects the method by string
      -- prefix; on this model's annotations the prefix of `annStr`
      -- determines the constructor, so the dispatch is a `match`.
      match a with
      | .union args => finishAlias (unionLoop env v args { s with typingErr := none })
      | .listOf elt =>
          finishAlias
            (match v with
             | .vlist items => listLoop env items elt 0 [] { s with typingErr := none }
             | _ =>
                 let e := FieldErr.basicE (reprOf env v) (pyType v) (.listOf elt) none
                 (false, { s with typingErr := some e }))
      | .literal lits =>
          finishAlias
            (if lits.any fun sv => pyEqSV v sv then (true, { s with typingErr := none })
             else
               let e := FieldErr.literalE (reprOf env v) (pyType v) (.literal lits)
               (false, { s with typingErr := some e }))
      | .anyT => finishAlias (true, { s with typingErr := none })
      | other => isInstLower env v other s
  else
    isInstLower env v a s
termination_by (sizeV v, sizeA a, 3)
decreasing_by
  · exact lex3_mid (Nat.le_refl _) (by simp only [sizeA]; omega)
  · exact lex3_mid (Nat.le_refl _) (by simp only [sizeA]; omega)
  · exact lex3_right (Nat.le_refl _) (Nat.le_refl _) (by omega)
  · exact lex3_right (Nat.le_refl _) (Nat.le_refl _) (by omega)

def isInstLower (env : Env) (v : Value) (a : Ann) (s : FState) : Bool × FState :=
  match a, v with
  | .record R, .vdict d => recordCheck env R d s
  | .record R, .vinst R2 flds =>
      if R2 == R then recordCheck env R (asdictF flds) s
      else basicCheck env v a s
  | _, _ => basicCheck env v a s
termination_by (sizeV v, sizeA a, 2)
decreasing_by
  · exact lex3_mid (by simp only [sizeV]; omega) (by simp only [sizeA]; omega)
  · exact lex3_mid (by simp only [sizeV, sizeF_asdictF]; omega) (by simp only [sizeA]; omega)

def recordCheck (env : Env) (R : RecordId) (d : List (String × Value)) (s : FState) :
    Bool × FState :=
  match construct env R d with
  | .error exc =>
      (false, appendErr s (.instE (reprOf env (.vdict d)) .tdict (.record R) (some exc) none))
  | .ok inst =>
      if inst.errs.isEmpty then
        (true, { s with repl := some (.vinst R inst.vals) })
      else
        (false, appendErr s
          (.instE (reprOf env (.vdict d)) .tdict (.record R) none (some inst.errs)))
termination_by (3 + sizeF d, 1, 1)
decreasing_by
  · exact lex3_right (Nat.le_refl _) (Nat.le_refl _) (by omega)

def unionLoop (env : Env) (v : Value) (args : List Ann) (s : FState) : Bool × FState :=
  match args with
  | [] => (false, s)
  | a :: rest =>
      let r := isInst env v a s
      if r.1 then (true, r.2) else unionLoop env v rest r.2
termination_by (sizeV v, sizeAL args, 4)
decreasing_by
  · exact lex3_right (Nat.le_refl _) (by simp only [sizeAL]; omega) (by omega)
  · exact lex3_mid (Nat.le_refl _) (by simp only [sizeAL]; have := sizeA_pos a; omega)

def listLoop (env : Env) (items : List Value) (elt : Ann) (idx : Nat) (acc : List Value)
    (s : FState) : Bool × FState :=
  match items with
  | [] => (true, { s with repl := some (.vlist acc) })
  | x :: rest =>
      let r := isInst env x elt s
      if r.1 then
        match r.2.repl with
        | some rv =>
            if truthy rv then
              listLoop env rest elt (idx + 1) (acc ++ [rv]) { r.2 with repl := some (.vbool false) }
            else
              listLoop env rest elt (idx + 1) (acc ++ [x]) r.2
        | none => listLoop env rest elt (idx + 1) (acc ++ [x]) r.2
      else
        let e := FieldErr.listE idx (reprOf env x) (pyType x) elt
        (false, { r.2 with typingErr := some e })
termination_by (1 + sizeL items, sizeA elt, 4)
decreasing_by
  all_goals first
    | exact lex3_left (sizeL_head_lt _ _)
    | exact lex3_left (sizeL_tail_lt _ _)

def construct (env : Env) (R : RecordId) (d : List (String × Value)) : Except PyExc Inst :=
  let fields := env.recs R
  -- `TypeError` on an unexpected keyword argument …
  if d.any fun kv => !(fields.any fun fd => fd.fname == kv.1) then
    .error .constructBadKwargs
  -- … or on a missing required (default-less) field.
  else if fields.any fun fd => fd.dflt.isNone && !(d.any fun kv => kv.1 == fd.fname) then
    .error .constructBadKwargs
  else
    let initVals := fields.map fun fd =>
      (fd.fname,
        match d.lookup fd.fname with
        | some v => v
        | none => svalToValue (fd.dflt.getD .snone))
    let r := runFields env fields initVals
    .ok ⟨R, r.1, r.2⟩
termination_by (3 + sizeF d, 1, 0)
decreasing_by
  · exact lex3_mid (by have := maxF_initVals_le d (env.recs R); omega) (by omega)

def runFields (env : Env) (fields : List FieldDecl) (initVals : List (String × Value)) :
    List (String × Value) × ErrReport :=
  match fields with
  | [] => ([], .nil)
  | fd :: rest =>
      let v := (initVals.lookup fd.fname).getD .vnone
      let r := isInst env v fd.ann ⟨[], none, none⟩
      let outv := if r.1 then (match r.2.repl with | some rv => rv | none => v) else v
      let rr := runFields env rest initVals
      ((fd.fname, outv) :: rr.1,
        if r.1 then rr.2 else .cons fd.fname r.2.fieldErrors rr.2)
termination_by (2 + maxF initVals, 0, fields.length)
decreasing_by
  · exact lex3_left (by have := sizeV_lookupD_le initVals fd.fname; omega)
  · exact lex3_right (Nat.le_refl _) (Nat.le_refl _) (by simp only [List.length_cons]; omega)

end

/-! ## Module-level API (source lines 93-127, 192-206) -/

/-- `_run_validation` on a live instance: rebuild the whole error report
and apply field substitutions. -/
def runValidation (env : Env) (i : Inst) : Inst :=
  let r := runFields env (env.recs i.rid) i.vals
  ⟨i.rid, r.1, r.2⟩

/-- The module-level function `is_valid(instance)` (199-206): runs
validation, returns `not bool(instance._errors__vdc)`; the mutated
instance is returned explicitly. -/
def isValidFn (env : Env) (i : Inst) : Bool × Inst :=
  let i2 := runValidation env i
  (i2.errs.isEmpty, i2)

/-- The module-level function `get_errors(instance)` (192-196): the last
computed report, or `None` when it is empty; no validation runs. -/
def getErrorsFn (i : Inst) : Option ErrReport :=
  if i.errs.isEmpty then none else some i.errs

/-- Observable logging effects (the deprecation warning the deprecated
instance methods emit). -/
inductive LogEvent where
  | deprecationWarning
deriving DecidableEq, Repr

/-- The deprecated instance method `instance.is_valid()` (111-127): logs
a deprecation warning, runs `_run_validation`, returns
`not bool(self._errors__vdc)`. -/
def isValidMethod (env : Env) (i : Inst) : (Bool × Inst) × List LogEvent :=
  let i2 := runValidation env i
  ((i2.errs.isEmpty, i2), [.deprecationWarning])

/-- The deprecated instance method `instance.get_errors()` (93-109):
logs a deprecation warning and returns the stored report or `None`,
without re-running validation. -/
def getErrorsMethod (i : Inst) : Option ErrReport × List LogEvent :=
  (if i.errs.isEmpty then none else some i.errs, [.deprecationWarning])

/-! ## Nested-type discovery (`ValidatedDC.get_nested_validated_dc`, 505-537)

`get_field_validated_dc` walks one annotation: through the `__args__` of
any `typing` alias, collecting every `ValidatedDC` subclass leaf; a
`Literal`'s `__args__` are its literal values, not classes, so they
contribute nothing, and the representative unsupported alias
`Dict[str, int]` has no class arguments either.  The outer method then
unions, over each *directly referenced* record type, that type's own
`get_nested_validated_dc()` — with no tracking of already-visited
types.  The recursion is modelled with an explicit depth: `nestedFuel
env n R = none` means the computation does not complete within `n`
nested calls (for a cyclic reference graph this holds for every `n`:
the Python call recurses forever). -/

mutual

/-- `get_field_validated_dc(annotation)`: record-type leaves of one
annotation. -/
def fieldDC : Ann → Finset RecordId
  | .prim _ => ∅
  | .record r => {r}
  | .union args => fieldDCL args
  | .listOf elt => fieldDC elt
  | .literal _ => ∅
  | .anyT => ∅
  | .unsupported => ∅

def fieldDCL : List Ann → Finset RecordId
  | [] => ∅
  | a :: rest => fieldDC a ∪ fieldDCL rest

end

/-- `local_validated_dc`: the record types referenced directly by the
fields of `R` (lines 529-531). -/
def localDC (env : Env) (R : RecordId) : Finset RecordId :=
  (env.recs R).foldl (fun acc fd => acc ∪ fieldDC fd.ann) ∅

/-- Sequence the recursive discovery calls over the direct references:
`none` (a diverging call) anywhere makes the whole loop diverge. -/
def seqCalls (f : RecordId → Option (Finset RecordId)) :
    List RecordId → Option (List (Finset RecordId))
  | [] => some []
  | r :: rest =>
      match f r with
      | none => none
      | some s2 =>
          match seqCalls f rest with
          | none => none
          | some others => some (s2 :: others)

/-- `get_nested_validated_dc` with explicit recursion depth `n`
(lines 533-537: start from a copy of the local set, then union each
directly referenced type's own recursive result; iteration order over
the set does not matter because the result is a union). -/
def nestedFuel (env : Env) : Nat → RecordId → Option (Finset RecordId)
  | 0, _ => none
  | n + 1, R =>
      let loc := localDC env R
      match seqCalls (nestedFuel env n) (loc.sort (· ≤ ·)) with
      | none => none
      | some results => some (results.foldl (fun acc s2 => acc ∪ s2) loc)

/-- Transitive reachability along direct record references: the record
types `get_nested_validated_dc` is specified to collect. -/
inductive ReachDC (env : Env) : RecordId → RecordId → Prop where
  | base {R r} : r ∈ localDC env R → ReachDC env R r
  | step {R r x} : r ∈ localDC env R → ReachDC env r x → ReachDC env R x

mutual

/-- Well-formedness of an annotation as Python can actually build it:
`typing.Union` requires at least two arguments (and `Optional[X]` is
`Union[X, None]`). -/
def wfAnn : Ann → Bool
  | .union args => (2 ≤ args.length) && wfAnnL args
  | .listOf elt => wfAnn elt
  | .prim _ => true
  | .record _ => true
  | .literal _ => true
  | .anyT => true
  | .unsupported => true

def wfAnnL : List Ann → Bool
  | [] => true
  | a :: rest => wfAnn a && wfAnnL rest

end

/-- The Boolean verdict of a check, taken at the canonical fresh field
state (it does not depend on the state, see `isInst_fst_eq`). -/
def checkB (env : Env) (v : Value) (a : Ann) : Bool :=
  (isInst env v a ⟨[], none, none⟩).1

/-! ## Classification of `annStr` under the string tests

These reduce by computation: only the prefix of `annStr` is consumed,
and for every constructor that prefix is a literal. -/

@[simp] theorem tAlias_union (env : Env) (args : List Ann) :
    isTypingAlias (annStr env (.union args)) = true := rfl

@[simp] theorem tAlias_listOf (env : Env) (elt : Ann) :
    isTypingAlias (annStr env (.listOf elt)) = true := rfl

@[simp] theorem tAlias_literal (env : Env) (lits : List SVal) :
    isTypingAlias (annStr env (.literal lits)) = true := rfl

@[simp] theorem tAlias_anyT (env : Env) : isTypingAlias (annStr env .anyT) = true := rfl

@[simp] theorem tAlias_unsupported (env : Env) :
    isTypingAlias (annStr env .unsupported) = true := rfl

@[simp] theorem tAlias_record (env : Env) (r : RecordId) :
    isTypingAlias (annStr env (.record r)) = false := rfl

@[simp] theorem tAlias_prim (env : Env) (t : PrimTy) :
    isTypingAlias (annStr env (.prim t)) = false := by
  cases t <;> rfl

@[simp] theorem sAlias_union (env : Env) (args : List Ann) :
    isSupportedAlias (annStr env (.union args)) = true := rfl

@[simp] theorem sAlias_listOf (env : Env) (elt : Ann) :
    isSupportedAlias (annStr env (.listOf elt)) = true := rfl

@[simp] theorem sAlias_literal (env : Env) (lits : List SVal) :
    isSupportedAlias (annStr env (.literal lits)) = true := rfl

@[simp] theorem sAlias_anyT (env : Env) : isSupportedAlias (annStr env .anyT) = true := rfl

@[simp] theorem sAlias_unsupported (env : Env) :
    isSupportedAlias (annStr env .unsupported) = false := rfl

@[simp] theorem finishAlias_fst (r : Bool × FState) : (finishAlias r).1 = r.1 := by
  unfold finishAlias
  split
  · rfl
  · split <;> simp_all

theorem sizeA_mem_le {a : Ann} {args : List Ann} (h : a ∈ args) : sizeA a ≤ sizeAL args := by
  induction args with
  | nil => cases h
  | cons b rest ih =>
      rcases List.mem_cons.mp h with rfl | h2
      · simp only [sizeAL]
        omega
      · have := ih h2
        simp only [sizeAL]
        have := sizeA_pos b
        omega

/-! ## State-independence of verdicts, monotonicity of error lists

The Boolean result of `isInst` depends only on the environment, the
value and the annotation, never on the incoming transient state, and a
check only ever *appends* to the field's error list.  Proved by strong
induction on `sizeV v + sizeA a` (the union loop shrinks the annotation,
the list loop the value, and the record layer opens a fresh state). -/

theorem recordCheck_fst_errsApp (env : Env) (R : RecordId) (d : List (String × Value))
    (s t : FState) :
    ((recordCheck env R d s).1 = (recordCheck env R d t).1) ∧
    (∃ dl, (recordCheck env R d s).2.fieldErrors = s.fieldErrors ++ dl) := by
  unfold recordCheck
  constructor
  · cases construct env R d with
    | error exc => rfl
    | ok inst => by_cases h : inst.errs.isEmpty = true <;> simp [h]
  · cases construct env R d with
    | error exc => exact ⟨_, rfl⟩
    | ok inst =>
        by_cases h : inst.errs.isEmpty = true
        · simp only [h, if_true]
          exact ⟨[], by simp⟩
        · simp only [h, if_false]
          exact ⟨_, rfl⟩

theorem basicCheck_fst_errsApp (env : Env) (v : Value) (a : Ann) (s t : FState) :
    ((basicCheck env v a s).1 = (basicCheck env v a t).1) ∧
    (∃ dl, (basicCheck env v a s).2.fieldErrors = s.fieldErrors ++ dl) := by
  unfold basicCheck
  constructor
  · by_cases h : rawIsInstance v a = true <;> simp [h]
  · by_cases h : rawIsInstance v a = true
    · simp only [h, if_true]
      exact ⟨[], by simp⟩
    · simp only [h, if_false]
      exact ⟨_, rfl⟩

theorem isInstLower_fst_errsApp (env : Env) (v : Value) (a : Ann) (s t : FState) :
    ((isInstLower env v a s).1 = (isInstLower env v a t).1) ∧
    (∃ dl, (isInstLower env v a s).2.fieldErrors = s.fieldErrors ++ dl) := by
  unfold isInstLower
  cases a with
  | record R =>
      cases v with
      | vdict d => exact recordCheck_fst_errsApp env R d s t
      | vinst R2 flds =>
          by_cases h : (R2 == R) = true
          · simp only [h, if_true]
            exact recordCheck_fst_errsApp env R (asdictF flds) s t
          · simp only [h, if_false]
            exact basicCheck_fst_errsApp env _ _ s t
      | vint n => exact basicCheck_fst_errsApp env _ _ s t
      | vstr s2 => exact basicCheck_fst_errsApp env _ _ s t
      | vbool b => exact basicCheck_fst_errsApp env _ _ s t
      | vnone => exact basicCheck_fst_errsApp env _ _ s t
      | vlist items => exact basicCheck_fst_errsApp env _ _ s t
  | prim t2 => exact basicCheck_fst_errsApp env _ _ s t
  | union args => exact basicCheck_fst_errsApp env _ _ s t
  | listOf elt => exact basicCheck_fst_errsApp env _ _ s t
  | literal lits => exact basicCheck_fst_errsApp env _ _ s t
  | anyT => exact basicCheck_fst_errsApp env _ _ s t
  | unsupported => exact basicCheck_fst_errsApp env _ _ s t

theorem finishAlias_errsApp (r : Bool × FState) :
    (finishAlias r).2.fieldErrors = r.2.fieldErrors ∨
    ∃ e, (finishAlias r).2.fieldErrors = r.2.fieldErrors ++ [e] := by
  unfold finishAlias
  split
  · exact Or.inl rfl
  · split
    · exact Or.inr ⟨_, rfl⟩
    · exact Or.inl rfl

theorem unionLoop_fst_errsApp {N : Nat} (env : Env) (v : Value)
    (IH : ∀ a (s t : FState), sizeV v + sizeA a ≤ N →
      ((isInst env v a s).1 = (isInst env v a t).1) ∧
      (∃ dl, (isInst env v a s).2.fieldErrors = s.fieldErrors ++ dl)) :
    ∀ (args : List Ann) (s t : FState), sizeV v + sizeAL args ≤ N →
      ((unionLoop env v args s).1 = (unionLoop env v args t).1) ∧
      (∃ dl, (unionLoop env v args s).2.fieldErrors = s.fieldErrors ++ dl) := by
  intro args
  induction args with
  | nil =>
      intro s t hb
      simp only [unionLoop]
      exact ⟨trivial, [], by simp⟩
  | cons a rest iha =>
      intro s t hb
      have hbA : sizeV v + sizeA a ≤ N := by
        simp only [sizeAL] at hb
        have := sizeA_pos a
        omega
      have hbR : sizeV v + sizeAL rest ≤ N := by
        simp only [sizeAL] at hb
        have := sizeA_pos a
        omega
      obtain ⟨hfst, dl1, hdl1⟩ := IH a s t hbA
      simp only [unionLoop]
      by_cases h : (isInst env v a s).1 = true
      · have h2 : (isInst env v a t).1 = true := by rw [← hfst]; exact h
        simp only [h, h2, if_true]
        exact ⟨trivial, dl1, hdl1⟩
      · have hf : (isInst env v a s).1 = false := by
          cases hv : (isInst env v a s).1 with
          | true => exact absurd hv h
          | false => rfl
        have hf2 : (isInst env v a t).1 = false := by rw [← hfst]; exact hf
        simp only [hf, hf2, Bool.false_eq_true, if_false]
        obtain ⟨hfst2, dl2, hdl2⟩ := iha (isInst env v a s).2 (isInst env v a t).2 hbR
        refine ⟨hfst2, dl1 ++ dl2, ?_⟩
        rw [hdl2, hdl1, List.append_assoc]

theorem listLoop_fst_errsApp {N : Nat} (env : Env) (elt : Ann)
    (IH : ∀ x (s t : FState), sizeV x + sizeA elt ≤ N →
      ((isInst env x elt s).1 = (isInst env x elt t).1) ∧
      (∃ dl, (isInst env x elt s).2.fieldErrors = s.fieldErrors ++ dl)) :
    ∀ (items : List Value) (idx : Nat) (acc : List Value) (s : FState)
      (idx2 : Nat) (acc2 : List Value) (t : FState), sizeL items + sizeA elt ≤ N →
      ((listLoop env items elt idx acc s).1 = (listLoop env items elt idx2 acc2 t).1) ∧
      (∃ dl, (listLoop env items elt idx acc s).2.fieldErrors = s.fieldErrors ++ dl) := by
  intro items
  induction items with
  | nil =>
      intro idx acc s idx2 acc2 t hb
      simp only [listLoop]
      exact ⟨trivial, [], by simp⟩
  | cons x rest iha =>
      intro idx acc s idx2 acc2 t hb
      have hbX : sizeV x + sizeA elt ≤ N := by
        simp only [sizeL] at hb
        omega
      have hbR : sizeL rest + sizeA elt ≤ N := by
        simp only [sizeL] at hb
        have := sizeV_pos x
        omega
      obtain ⟨hfst, dl1, hdl1⟩ := IH x s t hbX
      -- a canonical Boolean for the remaining loop, independent of
      -- index, accumulator and state
      have hcan : ∀ i a s2, (listLoop env rest elt i a s2).1 =
          (listLoop env rest elt 0 [] ⟨[], none, none⟩).1 := by
        intro i a s2
        exact (iha i a s2 0 [] ⟨[], none, none⟩ hbR).1
      have hL : ∀ (u : FState) (i : Nat) (a : List Value),
          (match u.repl with
            | some rv =>
                if truthy rv then
                  listLoop env rest elt (i + 1) (a ++ [rv]) { u with repl := some (.vbool false) }
                else listLoop env rest elt (i + 1) (a ++ [x]) u
            | none => listLoop env rest elt (i + 1) (a ++ [x]) u).1 =
          (listLoop env rest elt 0 [] ⟨[], none, none⟩).1 := by
        intro u i a
        cases hr : u.repl with
        | none => exact hcan _ _ _
        | some rv =>
            by_cases ht : truthy rv = true
            · simp only [ht, if_true]
              exact hcan _ _ _
            · simp only [ht, Bool.false_eq_true, if_false]
              exact hcan _ _ _
      have hP : ∀ (i : Nat) (a : List Value) (u : FState),
            (∃ dl2, u.fieldErrors = s.fieldErrors ++ dl2) →
            ∃ dl, (match u.repl with
              | some rv =>
                  if truthy rv then
                    listLoop env rest elt (i + 1) (a ++ [rv]) { u with repl := some (.vbool false) }
                  else listLoop env rest elt (i + 1) (a ++ [x]) u
              | none => listLoop env rest elt (i + 1) (a ++ [x]) u).2.fieldErrors =
              s.fieldErrors ++ dl := by
        intro i a u hu
        obtain ⟨dl2, hdl2⟩ := hu
        cases hr : u.repl with
        | none =>
            obtain ⟨_, dl3, hdl3⟩ := iha (i + 1) (a ++ [x]) u 0 [] ⟨[], none, none⟩ hbR
            exact ⟨dl2 ++ dl3, by rw [hdl3, hdl2, List.append_assoc]⟩
        | some rv =>
            by_cases ht : truthy rv = true
            · simp only [ht, if_true]
              obtain ⟨_, dl3, hdl3⟩ :=
                iha (i + 1) (a ++ [rv]) { u with repl := some (.vbool false) } 0 [] ⟨[], none, none⟩ hbR
              exact ⟨dl2 ++ dl3, by rw [hdl3]; rw [hdl2, List.append_assoc]⟩
            · simp only [ht, Bool.false_eq_true, if_false]
              obtain ⟨_, dl3, hdl3⟩ := iha (i + 1) (a ++ [x]) u 0 [] ⟨[], none, none⟩ hbR
              exact ⟨dl2 ++ dl3, by rw [hdl3, hdl2, List.append_assoc]⟩
      simp only [listLoop]
      by_cases h : (isInst env x elt s).1 = true
      · have h2 : (isInst env x elt t).1 = true := by rw [← hfst]; exact h
        simp only [h, h2, if_true]
        refine ⟨?_, ?_⟩
        · rw [hL (isInst env x elt s).2 idx acc, hL (isInst env x elt t).2 idx2 acc2]
        · exact hP idx acc (isInst env x elt s).2 ⟨dl1, hdl1⟩
      · have hf : (isInst env x elt s).1 = false := by
          cases hv : (isInst env x elt s).1 with
          | true => exact absurd hv h
          | false => rfl
        have hf2 : (isInst env x elt t).1 = false := by rw [← hfst]; exact hf
        simp only [hf, hf2, Bool.false_eq_true, if_false]
        exact ⟨trivial, dl1, hdl1⟩

theorem isInst_fst_errsApp :
    ∀ (N : Nat) (env : Env) (v : Value) (a : Ann) (s t : FState), sizeV v + sizeA a ≤ N →
      ((isInst env v a s).1 = (isInst env v a t).1) ∧
      (∃ dl, (isInst env v a s).2.fieldErrors = s.fieldErrors ++ dl) := by
  intro N
  induction N with
  | zero =>
      intro env v a s t h
      have h1 := sizeV_pos v
      have h2 := sizeA_pos a
      omega
  | succ N ihN =>
      intro env v a s t hb
      cases a with
      | union args =>
          have hbU : sizeV v + sizeAL args ≤ N := by
            simp only [sizeA] at hb
            omega
          obtain ⟨hfst, dl, hdl⟩ := unionLoop_fst_errsApp env v
            (fun a2 s2 t2 h2 => ihN env v a2 s2 t2 h2) args
            { s with typingErr := none } { t with typingErr := none } hbU
          simp only [isInst, tAlias_union, sAlias_union, Bool.not_true, Bool.false_eq_true,
            if_false, if_true]
          constructor
          · rw [finishAlias_fst, finishAlias_fst]
            exact hfst
          · rcases finishAlias_errsApp (unionLoop env v args { s with typingErr := none }) with
              hcase | ⟨e, hcase⟩
            · exact ⟨dl, by rw [hcase, hdl]⟩
            · exact ⟨dl ++ [e], by rw [hcase, hdl, List.append_assoc]⟩
      | listOf elt =>
          cases v with
          | vlist items =>
              simp only [isInst, tAlias_listOf, sAlias_listOf, Bool.not_true, Bool.false_eq_true,
                if_false, if_true]
              have hbL : sizeL items + sizeA elt ≤ N := by
                simp only [sizeV, sizeA] at hb
                omega
              obtain ⟨hfst, dl, hdl⟩ := listLoop_fst_errsApp env elt
                (fun x s2 t2 h2 => ihN env x elt s2 t2 h2)
                items 0 [] { s with typingErr := none } 0 [] { t with typingErr := none } hbL
              constructor
              · rw [finishAlias_fst, finishAlias_fst]
                exact hfst
              · rcases finishAlias_errsApp
                  (listLoop env items elt 0 [] { s with typingErr := none }) with
                  hcase | ⟨e, hcase⟩
                · exact ⟨dl, by rw [hcase, hdl]⟩
                · exact ⟨dl ++ [e], by rw [hcase, hdl, List.append_assoc]⟩
          | vint n =>
              simp only [isInst, tAlias_listOf, sAlias_listOf, Bool.not_true, Bool.false_eq_true,
                if_false, if_true]
              exact ⟨by trivial, [FieldErr.basicE (reprOf env (.vint n)) (pyType (.vint n))
                (.listOf elt) none], by simp [finishAlias]⟩
          | vstr s2 =>
              simp only [isInst, tAlias_listOf, sAlias_listOf, Bool.not_true, Bool.false_eq_true,
                if_false, if_true]
              exact ⟨by trivial, [FieldErr.basicE (reprOf env (.vstr s2)) (pyType (.vstr s2))
                (.listOf elt) none], by simp [finishAlias]⟩
          | vbool b =>
              simp only [isInst, tAlias_listOf, sAlias_listOf, Bool.not_true, Bool.false_eq_true,
                if_false, if_true]
              exact ⟨by trivial, [FieldErr.basicE (reprOf env (.vbool b)) (pyType (.vbool b))
                (.listOf elt) none], by simp [finishAlias]⟩
          | vnone =>
              simp only [isInst, tAlias_listOf, sAlias_listOf, Bool.not_true, Bool.false_eq_true,
                if_false, if_true]
              exact ⟨by trivial, [FieldErr.basicE (reprOf env .vnone) (pyType .vnone)
                (.listOf elt) none], by simp [finishAlias]⟩
          | vdict d =>
              simp only [isInst, tAlias_listOf, sAlias_listOf, Bool.not_true, Bool.false_eq_true,
                if_false, if_true]
              exact ⟨by trivial, [FieldErr.basicE (reprOf env (.vdict d)) (pyType (.vdict d))
                (.listOf elt) none], by simp [finishAlias]⟩
          | vinst R2 flds =>
              simp only [isInst, tAlias_listOf, sAlias_listOf, Bool.not_true, Bool.false_eq_true,
                if_false, if_true]
              exact ⟨by trivial, [FieldErr.basicE (reprOf env (.vinst R2 flds))
                (pyType (.vinst R2 flds)) (.listOf elt) none], by simp [finishAlias]⟩
      | literal lits =>
          simp only [isInst, tAlias_literal, sAlias_literal, Bool.not_true, Bool.false_eq_true,
            if_false, if_true]
          by_cases hany : (lits.any fun sv => pyEqSV v sv) = true
          · simp only [hany, if_true]
            exact ⟨by trivial, [], by simp [finishAlias]⟩
          · simp only [hany, Bool.false_eq_true, if_false]
            exact ⟨by trivial, [FieldErr.literalE (reprOf env v) (pyType v) (.literal lits)],
              by simp [finishAlias]⟩
      | anyT =>
          simp only [isInst, tAlias_anyT, sAlias_anyT, Bool.not_true, Bool.false_eq_true,
            if_false, if_true]
          exact ⟨by trivial, [], by simp [finishAlias]⟩
      | unsupported =>
          simp only [isInst, tAlias_unsupported, sAlias_unsupported, Bool.not_false, if_true]
          exact ⟨by trivial, [FieldErr.typingE (reprOf env v) (pyType v) .unsupported
            (some .aliasNotSupported)], by simp [appendErr]⟩
      | prim t2 =>
          simp only [isInst, tAlias_prim, Bool.false_eq_true, if_false]
          exact isInstLower_fst_errsApp env v (.prim t2) s t
      | record R =>
          simp only [isInst, tAlias_record, Bool.false_eq_true, if_false]
          exact isInstLower_fst_errsApp env v (.record R) s t

/-- The verdict of a check does not depend on the incoming field state. -/
theorem isInst_fst_eq (env : Env) (v : Value) (a : Ann) (s : FState) :
    (isInst env v a s).1 = checkB env v a :=
  (isInst_fst_errsApp (sizeV v + sizeA a) env v a s ⟨[], none, none⟩ (Nat.le_refl _)).1

/-- A check only appends to the field's error list. -/
theorem isInst_errsApp (env : Env) (v : Value) (a : Ann) (s : FState) :
    ∃ dl, (isInst env v a s).2.fieldErrors = s.fieldErrors ++ dl :=
  (isInst_fst_errsApp (sizeV v + sizeA a) env v a s s (Nat.le_refl _)).2

theorem unionLoop_errsApp (env : Env) (v : Value) :
    ∀ (args : List Ann) (s : FState),
      ∃ dl, (unionLoop env v args s).2.fieldErrors = s.fieldErrors ++ dl := by
  intro args
  induction args with
  | nil =>
      intro s
      simp only [unionLoop]
      exact ⟨[], by simp⟩
  | cons a rest iha =>
      intro s
      simp only [unionLoop]
      obtain ⟨dl1, hdl1⟩ := isInst_errsApp env v a s
      by_cases h : (isInst env v a s).1 = true
      · simp only [h, if_true]
        exact ⟨dl1, hdl1⟩
      · have hf : (isInst env v a s).1 = false := by
          cases hv : (isInst env v a s).1 with
          | true => exact absurd hv h
          | false => rfl
        simp only [hf, Bool.false_eq_true, if_false]
        obtain ⟨dl2, hdl2⟩ := iha (isInst env v a s).2
        exact ⟨dl1 ++ dl2, by rw [hdl2, hdl1, List.append_assoc]⟩

/-- A failed list loop always leaves a pending `_typing_field_error`. -/
theorem listLoop_fail_typingErr (env : Env) (elt : Ann) :
    ∀ (items : List Value) (idx : Nat) (acc : List Value) (s : FState),
      (listLoop env items elt idx acc s).1 = false →
      ∃ e, (listLoop env items elt idx acc s).2.typingErr = some e := by
  intro items
  induction items with
  | nil =>
      intro idx acc s h
      simp only [listLoop] at h
      exact Bool.noConfusion h
  | cons x rest iha =>
      intro idx acc s h
      simp only [listLoop] at h ⊢
      by_cases hx : (isInst env x elt s).1 = true
      · simp only [hx, if_true] at h ⊢
        cases hr : (isInst env x elt s).2.repl with
        | none =>
            simp only [hr] at h ⊢
            exact iha _ _ _ h
        | some rv =>
            simp only [hr] at h ⊢
            by_cases ht : truthy rv = true
            · simp only [ht, if_true] at h ⊢
              exact iha _ _ _ h
            · simp only [ht, Bool.false_eq_true, if_false] at h ⊢
              exact iha _ _ _ h
      · have hf : (isInst env x elt s).1 = false := by
          cases hv : (isInst env x elt s).1 with
          | true => exact absurd hv hx
          | false => rfl
        simp only [hf, Bool.false_eq_true, if_false]
        exact ⟨_, rfl⟩

theorem listLoop_errsApp (env : Env) (elt : Ann) :
    ∀ (items : List Value) (idx : Nat) (acc : List Value) (s : FState),
      ∃ dl, (listLoop env items elt idx acc s).2.fieldErrors = s.fieldErrors ++ dl := by
  intro items
  induction items with
  | nil =>
      intro idx acc s
      simp only [listLoop]
      exact ⟨[], by simp⟩
  | cons x rest iha =>
      intro idx acc s
      simp only [listLoop]
      obtain ⟨dl1, hdl1⟩ := isInst_errsApp env x elt s
      by_cases hx : (isInst env x elt s).1 = true
      · simp only [hx, if_true]
        cases hr : (isInst env x elt s).2.repl with
        | none =>
            obtain ⟨dl2, hdl2⟩ := iha (idx + 1) (acc ++ [x]) (isInst env x elt s).2
            exact ⟨dl1 ++ dl2, by rw [hdl2, hdl1, List.append_assoc]⟩
        | some rv =>
            by_cases ht : truthy rv = true
            · simp only [ht, if_true]
              obtain ⟨dl2, hdl2⟩ :=
                iha (idx + 1) (acc ++ [rv]) { (isInst env x elt s).2 with repl := some (.vbool false) }
              refine ⟨dl1 ++ dl2, ?_⟩
              rw [hdl2]
              simp only []
              rw [hdl1, List.append_assoc]
            · simp only [ht, Bool.false_eq_true, if_false]
              obtain ⟨dl2, hdl2⟩ := iha (idx + 1) (acc ++ [x]) (isInst env x elt s).2
              exact ⟨dl1 ++ dl2, by rw [hdl2, hdl1, List.append_assoc]⟩
      · have hf : (isInst env x elt s).1 = false := by
          cases hv : (isInst env x elt s).1 with
          | true => exact absurd hv hx
          | false => rfl
        simp only [hf, Bool.false_eq_true, if_false]
        exact ⟨dl1, hdl1⟩

theorem isInstLower_fail_grows (env : Env) (v : Value) (a : Ann) (s : FState)
    (h : (isInstLower env v a s).1 = false) :
    s.fieldErrors.length < (isInstLower env v a s).2.fieldErrors.length := by
  have hbasic : ∀ v2 a2, (basicCheck env v2 a2 s).1 = false →
      s.fieldErrors.length < (basicCheck env v2 a2 s).2.fieldErrors.length := by
    intro v2 a2 hc
    unfold basicCheck at hc ⊢
    by_cases hr : rawIsInstance v2 a2 = true
    · simp [hr] at hc
    · simp only [hr, Bool.false_eq_true, if_false, appendErr]
      simp
  have hrec : ∀ R d, (recordCheck env R d s).1 = false →
      s.fieldErrors.length < (recordCheck env R d s).2.fieldErrors.length := by
    intro R d hc
    unfold recordCheck at hc ⊢
    cases hcon : construct env R d with
    | error exc =>
        simp only [hcon, appendErr]
        simp
    | ok inst =>
        simp only [hcon] at hc ⊢
        by_cases he : inst.errs.isEmpty = true
        · simp [he] at hc
        · simp only [he, Bool.false_eq_true, if_false, appendErr]
          simp
  unfold isInstLower at h ⊢
  cases a with
  | record R =>
      cases v with
      | vdict d => exact hrec _ _ h
      | vinst R2 flds =>
          by_cases hR : (R2 == R) = true
          · simp only [hR, if_true] at h ⊢
            exact hrec _ _ h
          · simp only [hR, Bool.false_eq_true, if_false] at h ⊢
            exact hbasic _ _ h
      | vint n => exact hbasic _ _ h
      | vstr s2 => exact hbasic _ _ h
      | vbool b => exact hbasic _ _ h
      | vnone => exact hbasic _ _ h
      | vlist items => exact hbasic _ _ h
  | prim t2 => exact hbasic _ _ h
  | union args => exact hbasic _ _ h
  | listOf elt => exact hbasic _ _ h
  | literal lits => exact hbasic _ _ h
  | anyT => exact hbasic _ _ h
  | unsupported => exact hbasic _ _ h

/-- A failed check records at least one Field Error (for annotations
Python can actually build). -/
theorem isInst_fail_grows :
    ∀ (N : Nat) (env : Env) (v : Value) (a : Ann) (s : FState), sizeA a ≤ N →
      wfAnn a = true → (isInst env v a s).1 = false →
      s.fieldErrors.length < (isInst env v a s).2.fieldErrors.length := by
  intro N
  induction N with
  | zero =>
      intro env v a s hle
      have := sizeA_pos a
      omega
  | succ N ihN =>
      intro env v a s hle hwf hfail
      cases a with
      | union args =>
          simp only [isInst, tAlias_union, sAlias_union, Bool.not_true, Bool.false_eq_true,
            if_false, if_true] at hfail ⊢
          have hwf2 : 2 ≤ args.length ∧ wfAnnL args = true := by
            simp only [wfAnn, Bool.and_eq_true, decide_eq_true_eq] at hwf
            exact hwf
          have hfl : (unionLoop env v args { s with typingErr := none }).1 = false := by
            rw [← finishAlias_fst]
            exact hfail
          -- the first alternative already fails and grows the error list
          have hgrow : ∀ (args2 : List Ann) (s2 : FState), args2 ≠ [] → wfAnnL args2 = true →
              sizeAL args2 ≤ N →
              (unionLoop env v args2 s2).1 = false →
              s2.fieldErrors.length < (unionLoop env v args2 s2).2.fieldErrors.length := by
            intro args2
            cases args2 with
            | nil => intro s2 hne; exact absurd rfl hne
            | cons a2 rest =>
                intro s2 _ hwf3 hsz hfail2
                have hwfa : wfAnn a2 = true ∧ wfAnnL rest = true := by
                  simp only [wfAnnL, Bool.and_eq_true] at hwf3
                  exact hwf3
                simp only [unionLoop] at hfail2 ⊢
                by_cases hx : (isInst env v a2 s2).1 = true
                · simp [hx] at hfail2
                · have hf : (isInst env v a2 s2).1 = false := by
                    cases hv : (isInst env v a2 s2).1 with
                    | true => exact absurd hv hx
                    | false => rfl
                  simp only [hf, Bool.false_eq_true, if_false] at hfail2 ⊢
                  have h1 : s2.fieldErrors.length < (isInst env v a2 s2).2.fieldErrors.length := by
                    refine ihN env v a2 s2 ?_ hwfa.1 hf
                    simp only [sizeAL] at hsz
                    omega
                  obtain ⟨dl2, hdl2⟩ := unionLoop_errsApp env v rest (isInst env v a2 s2).2
                  rw [hdl2]
                  simp only [List.length_append]
                  omega
          have hne : args ≠ [] := by
            cases args with
            | nil => exact absurd hwf2.1 (by decide)
            | cons a2 rest => exact fun hc => List.noConfusion hc
          have hsz : sizeAL args ≤ N := by
            simp only [sizeA] at hle
            omega
          have hg : s.fieldErrors.length <
              (unionLoop env v args { s with typingErr := none }).2.fieldErrors.length :=
            hgrow args { s with typingErr := none } hne hwf2.2 hsz hfl
          rcases finishAlias_errsApp (unionLoop env v args { s with typingErr := none }) with
            hcase | ⟨e, hcase⟩
          · rw [hcase]
            exact hg
          · rw [hcase]
            simp only [List.length_append, List.length_cons, List.length_nil]
            omega
      | listOf elt =>
          cases v with
          | vlist items =>
              simp only [isInst, tAlias_listOf, sAlias_listOf, Bool.not_true, Bool.false_eq_true,
                if_false, if_true] at hfail ⊢
              have hfl : (listLoop env items elt 0 [] { s with typingErr := none }).1 = false := by
                rw [← finishAlias_fst]
                exact hfail
              obtain ⟨e, he⟩ := listLoop_fail_typingErr env elt items 0 [] _ hfl
              obtain ⟨dl, hdl⟩ := listLoop_errsApp env elt items 0 [] { s with typingErr := none }
              unfold finishAlias
              simp only [hfl, Bool.false_eq_true, if_false, he]
              simp only [hdl, List.length_append, List.length_cons, List.length_nil]
              omega
          | vint n =>
              simp only [isInst, tAlias_listOf, sAlias_listOf, Bool.not_true, Bool.false_eq_true,
                if_false, if_true, finishAlias]
              simp
          | vstr s2 =>
              simp only [isInst, tAlias_listOf, sAlias_listOf, Bool.not_true, Bool.false_eq_true,
                if_false, if_true, finishAlias]
              simp
          | vbool b =>
              simp only [isInst, tAlias_listOf, sAlias_listOf, Bool.not_true, Bool.false_eq_true,
                if_false, if_true, finishAlias]
              simp
          | vnone =>
              simp only [isInst, tAlias_listOf, sAlias_listOf, Bool.not_true, Bool.false_eq_true,
                if_false, if_true, finishAlias]
              simp
          | vdict d =>
              simp only [isInst, tAlias_listOf, sAlias_listOf, Bool.not_true, Bool.false_eq_true,
                if_false, if_true, finishAlias]
              simp
          | vinst R2 flds =>
              simp only [isInst, tAlias_listOf, sAlias_listOf, Bool.not_true, Bool.false_eq_true,
                if_false, if_true, finishAlias]
              simp
      | literal lits =>
          simp only [isInst, tAlias_literal, sAlias_literal, Bool.not_true, Bool.false_eq_true,
            if_false, if_true] at hfail ⊢
          by_cases hany : (lits.any fun sv => pyEqSV v sv) = true
          · simp [hany, finishAlias] at hfail
          · simp only [hany, Bool.false_eq_true, if_false, finishAlias] at hfail ⊢
            simp
      | anyT =>
          simp [isInst, tAlias_anyT, sAlias_anyT, finishAlias] at hfail
      | unsupported =>
          simp only [isInst, tAlias_unsupported, sAlias_unsupported, Bool.not_false, if_true,
            appendErr]
          simp
      | prim t2 =>
          simp only [isInst, tAlias_prim, Bool.false_eq_true, if_false] at hfail ⊢
          exact isInstLower_fail_grows env v (.prim t2) s hfail
      | record R =>
          simp only [isInst, tAlias_record, Bool.false_eq_true, if_false] at hfail ⊢
          exact isInstLower_fail_grows env v (.record R) s hfail

/-! ## Field-level characterization of a validation run -/

/-- The value `getattr` reads for a field at the start of its check. -/
def fieldOrig (initVals : List (String × Value)) (fd : FieldDecl) : Value :=
  (initVals.lookup fd.fname).getD .vnone

/-- The value stored in the field after its check: the proposed
substitution when the check succeeded and proposed one, the original
value otherwise (`_try_replacing`, lines 281-300). -/
def fieldOut (env : Env) (initVals : List (String × Value)) (fd : FieldDecl) : Value :=
  let v := fieldOrig initVals fd
  let r := isInst env v fd.ann ⟨[], none, none⟩
  if r.1 then (match r.2.repl with | some rv => rv | none => v) else v

theorem runFields_vals (env : Env) :
    ∀ (fields : List FieldDecl) (initVals : List (String × Value)),
      (runFields env fields initVals).1 =
        fields.map fun fd => (fd.fname, fieldOut env initVals fd) := by
  intro fields
  induction fields with
  | nil => intro initVals; simp [runFields]
  | cons fd rest ih =>
      intro initVals
      simp only [runFields, List.map_cons, ih]
      rfl

/-- Error reports of two runs agree when every field's check agrees. -/
theorem runFields_errs_congr (env : Env) :
    ∀ (fields : List FieldDecl) (iv1 iv2 : List (String × Value)),
      (∀ fd ∈ fields,
        isInst env ((iv1.lookup fd.fname).getD .vnone) fd.ann ⟨[], none, none⟩ =
        isInst env ((iv2.lookup fd.fname).getD .vnone) fd.ann ⟨[], none, none⟩) →
      (runFields env fields iv1).2 = (runFields env fields iv2).2 := by
  intro fields
  induction fields with
  | nil =>
      intro iv1 iv2 h
      simp [runFields]
  | cons fd rest ih =>
      intro iv1 iv2 h
      have hfd := h fd (List.mem_cons_self fd rest)
      have hrest := ih iv1 iv2 (fun fd2 h2 => h fd2 (List.mem_cons_of_mem fd h2))
      simp only [runFields, hfd, hrest]

/-! ## Lookup lemmas for the construction-path normalization (C8) -/

theorem lookup_append_of_not_mem {α β : Type} [BEq α] (k : α)
    (pre rest : List (α × β)) (h : ∀ kv ∈ pre, (k == kv.1) = false) :
    (pre ++ rest).lookup k = rest.lookup k := by
  induction pre with
  | nil => rfl
  | cons kv pre ih =>
      have hk := h kv (List.mem_cons_self kv pre)
      simp only [List.cons_append, List.lookup, hk]
      exact ih fun kv2 h2 => h kv2 (List.mem_cons_of_mem kv h2)

theorem lookup_cons_ne {α β : Type} [BEq α] (k : α) (kv : α × β) (rest : List (α × β))
    (h : (k == kv.1) = false) : ((kv :: rest).lookup k) = rest.lookup k := by
  simp only [List.lookup, h]

theorem find?_name_eq (g : String) :
    ∀ (l : List FieldDecl) (fd0 : FieldDecl),
      (l.find? fun fd2 => g == fd2.fname) = some fd0 → fd0.fname = g := by
  intro l
  induction l with
  | nil => intro fd0 h; simp [List.find?] at h
  | cons fd rest ih =>
      intro fd0 h
      rw [List.find?] at h
      cases hg : (g == fd.fname) with
      | true =>
          rw [hg] at h
          have : fd = fd0 := by injection h
          subst this
          exact (eq_of_beq hg).symm
      | false =>
          rw [hg] at h
          exact ih fd0 h

theorem lookup_map_fields (F : FieldDecl → Value) (g : String) :
    ∀ (fields : List FieldDecl),
      (fields.map fun fd => (fd.fname, F fd)).lookup g =
        (fields.find? fun fd => g == fd.fname).map F := by
  intro fields
  induction fields with
  | nil => rfl
  | cons fd rest ih =>
      simp only [List.map_cons, List.lookup, List.find?]
      cases hg : (g == fd.fname) with
      | true => rfl
      | false => exact ih

/-! ## Claim C7 — substitutions only on success (frame property) -/

/-- C7: the validation machinery writes a field's stored value only when
that field's check succeeds and a substitution is pending; a failed check
leaves the stored value untouched and applies no substitution.  The
first conjunct ties the per-field function to the whole run. -/
theorem c7_substitution_frame (env : Env) (fields : List FieldDecl)
    (initVals : List (String × Value)) (fd : FieldDecl) :
    ((runFields env fields initVals).1 =
      fields.map fun fd2 => (fd2.fname, fieldOut env initVals fd2)) ∧
    ((isInst env (fieldOrig initVals fd) fd.ann ⟨[], none, none⟩).1 = false →
      fieldOut env initVals fd = fieldOrig initVals fd) ∧
    ((isInst env (fieldOrig initVals fd) fd.ann ⟨[], none, none⟩).1 = true →
      (isInst env (fieldOrig initVals fd) fd.ann ⟨[], none, none⟩).2.repl = none →
      fieldOut env initVals fd = fieldOrig initVals fd) ∧
    (fieldOut env initVals fd ≠ fieldOrig initVals fd →
      (isInst env (fieldOrig initVals fd) fd.ann ⟨[], none, none⟩).1 = true ∧
      (isInst env (fieldOrig initVals fd) fd.ann ⟨[], none, none⟩).2.repl =
        some (fieldOut env initVals fd)) := by
  refine ⟨runFields_vals env fields initVals, ?_, ?_, ?_⟩
  · intro hfail
    unfold fieldOut
    simp only [hfail, Bool.false_eq_true, if_false]
  · intro hok hnone
    unfold fieldOut
    simp only [hok, hnone, if_true]
  · intro hne
    unfold fieldOut at hne ⊢
    by_cases hok : (isInst env (fieldOrig initVals fd) fd.ann ⟨[], none, none⟩).1 = true
    · simp only [hok, if_true] at hne ⊢
      cases hr : (isInst env (fieldOrig initVals fd) fd.ann ⟨[], none, none⟩).2.repl with
      | none => simp only [hr] at hne; exact absurd rfl hne
      | some rv => simp only [hr] at hne ⊢; exact ⟨by trivial, by trivial⟩
    · have hf : (isInst env (fieldOrig initVals fd) fd.ann ⟨[], none, none⟩).1 = false := by
        cases hv : (isInst env (fieldOrig initVals fd) fd.ann ⟨[], none, none⟩).1 with
        | true => exact absurd hv hok
        | false => rfl
      simp only [hf, Bool.false_eq_true, if_false] at hne
      exact absurd rfl hne

/-! ## Claim C9 — truncation of value representations -/

/-- C9: a stored value representation is at most `MAX_REPR = 30`
characters; a longer string form is truncated to its first 26
characters, an ellipsis, and the final character; a short one is kept
unchanged. -/
theorem c9_value_repr_truncation (s : List Char) :
    maxRepr = 30 ∧
    (getValueRepr s).length ≤ maxRepr ∧
    (30 < s.length →
      getValueRepr s = s.take 26 ++ ['.', '.', '.'] ++ s.drop (s.length - 1)) ∧
    (s.length ≤ 30 → getValueRepr s = s) :=
  ⟨rfl, getValueRepr_length_le s, getValueRepr_of_gt s, getValueRepr_of_le s⟩

/-- C9 witness at a 35-character string and at a short string. -/
theorem c9_value_repr_truncation_witness :
    getValueRepr (List.replicate 35 'a') =
      List.replicate 26 'a' ++ ['.', '.', '.'] ++ ['a'] ∧
    getValueRepr ("abc").data = ("abc").data := by
  constructor
  · have h := (c9_value_repr_truncation (List.replicate 35 'a')).2.2.1 (by simp)
    rw [h]
    decide
  · exact (c9_value_repr_truncation ("abc").data).2.2.2 (by decide)

/-! ## Claim C10 — deprecated instance methods vs module functions -/

/-- C10: the deprecated instance methods return the same values and have
the same effect on the instance as the module-level functions, apart
from emitting the deprecation log message. -/
theorem c10_deprecated_methods_equiv (env : Env) (i : Inst) :
    (isValidMethod env i).1 = isValidFn env i ∧
    (getErrorsMethod i).1 = getErrorsFn i ∧
    (isValidMethod env i).2 = [LogEvent.deprecationWarning] ∧
    (getErrorsMethod i).2 = [LogEvent.deprecationWarning] :=
  ⟨rfl, rfl, rfl, rfl⟩

/-! ## Claim C8 — mapping/instance equivalence -/

/-- An instance value is normalized to its `asdict` mapping before
construction (`InstanceValidation._is_instance__vdc`, lines 250-256),
so the two input forms take a single construction path. -/
theorem isInst_inst_eq_dict (env : Env) (R : RecordId) (flds : List (String × Value))
    (s : FState) :
    isInst env (.vinst R flds) (.record R) s =
    isInst env (.vdict (asdictF flds)) (.record R) s := by
  simp only [isInst, tAlias_record, Bool.false_eq_true, if_false, isInstLower,
    beq_self_eq_true, if_true]

theorem any_key_mid (p : String → Bool) (f : String) (v1 v2 : Value) :
    ∀ (pre post : List (String × Value)),
      ((pre ++ (f, v1) :: post).any fun kv => p kv.1) =
      ((pre ++ (f, v2) :: post).any fun kv => p kv.1) := by
  intro pre post
  induction pre with
  | nil => simp
  | cons kv pre ih => simp only [List.cons_append, List.any_cons, ih]

theorem lookup_mid_ne (g f : String) (hg : (g == f) = false) (v1 v2 : Value) :
    ∀ (pre post : List (String × Value)),
      (pre ++ (f, v1) :: post).lookup g = (pre ++ (f, v2) :: post).lookup g := by
  intro pre post
  induction pre with
  | nil => simp only [List.nil_append, List.lookup, hg]
  | cons kv pre ih =>
      simp only [List.cons_append, List.lookup]
      cases g == kv.1 with
      | true => rfl
      | false => exact ih

theorem lookup_mid_eq (f : String) (v : Value) (pre post : List (String × Value))
    (hpre : ∀ kv ∈ pre, (f == kv.1) = false) :
    (pre ++ (f, v) :: post).lookup f = some v := by
  rw [lookup_append_of_not_mem f pre _ hpre]
  simp [List.lookup]

/-- C8: constructing a record type whose field `f` is declared with a
record type expression, with `f` bound to an already-built instance or
to the equivalent mapping (its `asdict` decomposition), follows one
construction path and yields identical Error Reports. -/
theorem c8_mapping_instance_equiv (env : Env) (R0 R : RecordId) (f : String)
    (flds pre post : List (String × Value)) (s : FState)
    (hpre : ∀ kv ∈ pre, (f == kv.1) = false)
    (hf : ∀ fd ∈ env.recs R0, fd.fname = f → fd.ann = Ann.record R) :
    (isInst env (.vinst R flds) (.record R) s =
      isInst env (.vdict (asdictF flds)) (.record R) s) ∧
    (construct env R0 (pre ++ (f, Value.vinst R flds) :: post)).map Inst.errs =
      (construct env R0 (pre ++ (f, Value.vdict (asdictF flds)) :: post)).map Inst.errs := by
  refine ⟨isInst_inst_eq_dict env R flds s, ?_⟩
  have hc1 : ((pre ++ (f, Value.vinst R flds) :: post).any fun kv =>
        !((env.recs R0).any fun fd2 => fd2.fname == kv.1)) =
      ((pre ++ (f, Value.vdict (asdictF flds)) :: post).any fun kv =>
        !((env.recs R0).any fun fd2 => fd2.fname == kv.1)) :=
    any_key_mid (fun k => !((env.recs R0).any fun fd2 => fd2.fname == k)) f _ _ pre post
  have hc2 : ∀ (fields2 : List FieldDecl),
      (fields2.any fun fd2 => fd2.dflt.isNone &&
        !((pre ++ (f, Value.vinst R flds) :: post).any fun kv => kv.1 == fd2.fname)) =
      (fields2.any fun fd2 => fd2.dflt.isNone &&
        !((pre ++ (f, Value.vdict (asdictF flds)) :: post).any fun kv => kv.1 == fd2.fname)) := by
    intro fields2
    induction fields2 with
    | nil => rfl
    | cons fd2 rest ih =>
        simp only [List.any_cons, ih]
        have := any_key_mid (fun k => k == fd2.fname) f (Value.vinst R flds)
          (Value.vdict (asdictF flds)) pre post
        rw [this]
  have hlook : ∀ (g : String), (g == f) = false →
      (pre ++ (f, Value.vinst R flds) :: post).lookup g =
      (pre ++ (f, Value.vdict (asdictF flds)) :: post).lookup g :=
    fun g hg => lookup_mid_ne g f hg _ _ pre post
  have hcongr : (runFields env (env.recs R0) ((env.recs R0).map fun fd =>
        (fd.fname, match (pre ++ (f, Value.vinst R flds) :: post).lookup fd.fname with
          | some v => v
          | none => svalToValue (fd.dflt.getD .snone)))).2 =
      (runFields env (env.recs R0) ((env.recs R0).map fun fd =>
        (fd.fname, match (pre ++ (f, Value.vdict (asdictF flds)) :: post).lookup fd.fname with
          | some v => v
          | none => svalToValue (fd.dflt.getD .snone)))).2 := by
    apply runFields_errs_congr
    intro fd hfd
    rw [lookup_map_fields, lookup_map_fields]
    cases hfind : (env.recs R0).find? fun fd2 => fd.fname == fd2.fname with
    | none => rfl
    | some fd0 =>
        have h0name : fd0.fname = fd.fname := find?_name_eq fd.fname (env.recs R0) fd0 hfind
        by_cases hgf : (fd.fname == f) = true
        · -- the field bound to the two equivalent forms
          have hfeq : fd.fname = f := eq_of_beq hgf
          have hann : fd.ann = Ann.record R := hf fd hfd hfeq
          have hl1 : (pre ++ (f, Value.vinst R flds) :: post).lookup fd0.fname =
              some (Value.vinst R flds) := by
            rw [h0name, hfeq]
            exact lookup_mid_eq f _ pre post hpre
          have hl2 : (pre ++ (f, Value.vdict (asdictF flds)) :: post).lookup fd0.fname =
              some (Value.vdict (asdictF flds)) := by
            rw [h0name, hfeq]
            exact lookup_mid_eq f _ pre post hpre
          simp only [Option.map_some', hl1, hl2, Option.getD_some, hann]
          exact isInst_inst_eq_dict env R flds _
        · have hgf2 : (fd.fname == f) = false := by
            cases hv : (fd.fname == f) with
            | true => exact absurd hv hgf
            | false => rfl
          have hlk := hlook fd0.fname (by rw [h0name]; exact hgf2)
          simp only [Option.map_some', hlk]
  simp only [construct]
  rw [hc1, hc2 (env.recs R0)]
  by_cases h1 : ((pre ++ (f, Value.vdict (asdictF flds)) :: post).any fun kv =>
      !((env.recs R0).any fun fd2 => fd2.fname == kv.1)) = true
  · simp only [h1, if_true]
  · have h1f : ((pre ++ (f, Value.vdict (asdictF flds)) :: post).any fun kv =>
        !((env.recs R0).any fun fd2 => fd2.fname == kv.1)) = false := by
      cases hv : ((pre ++ (f, Value.vdict (asdictF flds)) :: post).any fun kv =>
          !((env.recs R0).any fun fd2 => fd2.fname == kv.1)) with
      | true => exact absurd hv h1
      | false => rfl
    simp only [h1f, Bool.false_eq_true, if_false]
    by_cases h2 : ((env.recs R0).any fun fd2 => fd2.dflt.isNone &&
        !((pre ++ (f, Value.vdict (asdictF flds)) :: post).any fun kv =>
          kv.1 == fd2.fname)) = true
    · simp only [h2, if_true]
    · have h2f : ((env.recs R0).any fun fd2 => fd2.dflt.isNone &&
          !((pre ++ (f, Value.vdict (asdictF flds)) :: post).any fun kv =>
            kv.1 == fd2.fname)) = false := by
        cases hv : ((env.recs R0).any fun fd2 => fd2.dflt.isNone &&
            !((pre ++ (f, Value.vdict (asdictF flds)) :: post).any fun kv =>
              kv.1 == fd2.fname)) with
        | true => exact absurd hv h2
        | false => rfl
      simp only [h2f, Bool.false_eq_true, if_false, Except.map]
      simp only [hcongr]

/-- Record 0 has one field `c` declared with record type 1 (`Phone`-like
with a single `str` field `p`). -/
def envC8 : Env :=
  ⟨fun r =>
      if r = 0 then [⟨"c", .record 1, none⟩]
      else if r = 1 then [⟨"p", .prim .strT, none⟩]
      else [],
   fun r => if r = 1 then ("P").data else ("H").data⟩

/-- C8 witness: the normalization theorem applied to a concrete record
holder, with `c` bound to an instance and to its `asdict` mapping. -/
theorem c8_mapping_instance_equiv_witness :
    (construct envC8 0
        ([] ++ ("c", Value.vinst 1 [("p", Value.vstr ("x").data)]) :: [])).map Inst.errs =
      (construct envC8 0
        ([] ++ ("c", Value.vdict (asdictF [("p", Value.vstr ("x").data)])) :: [])).map
        Inst.errs :=
  (c8_mapping_instance_equiv envC8 0 1 "c" [("p", Value.vstr ("x").data)] [] []
    ⟨[], none, none⟩ (by intro kv h; cases h)
    (by
      intro fd hfd hname
      simp [envC8] at hfd
      subst hfd
      rfl)).2

/-! ## Claim C4 — union alternatives in declared order, first match wins -/

/-- Record 0 has one field `u : Union[A, B]` where `A` is record 1 and
`B` is record 2, both with a single `int` field `n` — so a mapping
`\x7b"n": 1\x7d` is convertible to either. -/
def envC4 : Env :=
  ⟨fun r =>
      if r = 0 then [⟨"u", .union [.record 1, .record 2], none⟩]
      else if r = 1 then [⟨"n", .prim .intT, none⟩]
      else if r = 2 then [⟨"n", .prim .intT, none⟩]
      else [],
    fun r => if r = 1 then ("A").data else if r = 2 then ("B").data else ("Holder").data⟩

def instC4 : Inst := ⟨0, [("u", .vdict [("n", .vint 1)])], .nil⟩

theorem unionLoop_first_match (env : Env) (v : Value) :
    ∀ (pre : List Ann) (a : Ann) (post : List Ann) (s : FState),
      (∀ y ∈ pre, checkB env v y = false) → checkB env v a = true →
      unionLoop env v (pre ++ a :: post) s = unionLoop env v (pre ++ [a]) s ∧
      (unionLoop env v (pre ++ a :: post) s).1 = true := by
  intro pre
  induction pre with
  | nil =>
      intro a post s hpre ha
      simp only [List.nil_append, unionLoop]
      rw [isInst_fst_eq, ha]
      simp
  | cons y pre ih =>
      intro a post s hpre ha
      have hy : checkB env v y = false := hpre y (List.mem_cons_self y pre)
      have hpre2 : ∀ z ∈ pre, checkB env v z = false :=
        fun z hz => hpre z (List.mem_cons_of_mem y hz)
      simp only [List.cons_append, unionLoop]
      rw [isInst_fst_eq, hy]
      simp only [Bool.false_eq_true, if_false]
      exact ih a post (isInst env v y s).2 hpre2 ha

/-- C4: the alternatives of a `Union`/`Optional` annotation are tried in
declared order, the first matching alternative wins immediately — the
whole check, state effects (hence any pending substitution the winner
proposed) included, equals the check with everything after the winner
removed — and, concretely, for `Union[A, B]` with a mapping valid for
both record types, the substituted value is an instance of `A`. -/
theorem c4_union_first_match_wins :
    (∀ (env : Env) (v : Value) (pre : List Ann) (a : Ann) (post : List Ann) (s : FState),
      (∀ y ∈ pre, checkB env v y = false) → checkB env v a = true →
      isInst env v (.union (pre ++ a :: post)) s = isInst env v (.union (pre ++ [a])) s ∧
      (isInst env v (.union (pre ++ a :: post)) s).1 = true) ∧
    (checkB envC4 (.vdict [("n", .vint 1)]) (.record 1) = true ∧
      checkB envC4 (.vdict [("n", .vint 1)]) (.record 2) = true ∧
      (isValidFn envC4 instC4).1 = true ∧
      (isValidFn envC4 instC4).2.vals = [("u", .vinst 1 [("n", .vint 1)])]) := by
  constructor
  · intro env v pre a post s hpre ha
    obtain ⟨heq, htrue⟩ := unionLoop_first_match env v pre a post
      { s with typingErr := none } hpre ha
    constructor
    · simp only [isInst, tAlias_union, sAlias_union, Bool.not_true, Bool.false_eq_true,
        if_false, if_true]
      rw [heq]
    · simp only [isInst, tAlias_union, sAlias_union, Bool.not_true, Bool.false_eq_true,
        if_false, if_true]
      rw [finishAlias_fst]
      exact htrue
  · refine ⟨?_, ?_, ?_, ?_⟩
    · simp [checkB, isInst, isInstLower, recordCheck, construct, runFields, basicCheck,
        rawIsInstance, primIsInstance, envC4, ErrReport.isEmpty, appendErr, finishAlias,
        truthy, pyType]
    · simp [checkB, isInst, isInstLower, recordCheck, construct, runFields, basicCheck,
        rawIsInstance, primIsInstance, envC4, ErrReport.isEmpty, appendErr, finishAlias,
        truthy, pyType]
    · simp [isValidFn, runValidation, runFields, isInst, isInstLower, recordCheck, construct,
        unionLoop, listLoop, basicCheck, rawIsInstance, primIsInstance, finishAlias, appendErr,
        envC4, instC4, pyType, truthy, ErrReport.isEmpty]
    · simp [isValidFn, runValidation, runFields, isInst, isInstLower, recordCheck, construct,
        unionLoop, listLoop, basicCheck, rawIsInstance, primIsInstance, finishAlias, appendErr,
        envC4, instC4, pyType, truthy, ErrReport.isEmpty]

/-! ## Claim C5 — list checks fail fast at the first invalid element -/

theorem listLoop_first_invalid (env : Env) (elt : Ann) :
    ∀ (pre : List Value) (x : Value) (post : List Value) (idx : Nat) (acc : List Value)
      (s : FState),
      (∀ y ∈ pre, checkB env y elt = true) → checkB env x elt = false →
      listLoop env (pre ++ x :: post) elt idx acc s = listLoop env (pre ++ [x]) elt idx acc s ∧
      (listLoop env (pre ++ x :: post) elt idx acc s).1 = false ∧
      (listLoop env (pre ++ x :: post) elt idx acc s).2.typingErr =
        some (.listE (idx + pre.length) (reprOf env x) (pyType x) elt) ∧
      ∃ dl, (listLoop env (pre ++ x :: post) elt idx acc s).2.fieldErrors =
        s.fieldErrors ++ dl := by
  intro pre
  induction pre with
  | nil =>
      intro x post idx acc s hpre hx
      simp only [List.nil_append, List.length_nil, Nat.add_zero, listLoop]
      rw [isInst_fst_eq, hx]
      simp only [Bool.false_eq_true, if_false]
      exact ⟨by trivial, by trivial, by trivial, isInst_errsApp env x elt s⟩
  | cons y pre ih =>
      intro x post idx acc s hpre hx
      have hy : checkB env y elt = true := hpre y (List.mem_cons_self y pre)
      have hpre2 : ∀ z ∈ pre, checkB env z elt = true :=
        fun z hz => hpre z (List.mem_cons_of_mem y hz)
      simp only [List.cons_append, listLoop]
      rw [isInst_fst_eq, hy]
      simp only [if_true]
      obtain ⟨dl0, hdl0⟩ := isInst_errsApp env y elt s
      have hlen : (idx + 1) + pre.length = idx + (y :: pre).length := by
        simp only [List.length_cons]
        omega
      cases hr : (isInst env y elt s).2.repl with
      | none =>
          obtain ⟨heq, hfst, hterr, dl, hdl⟩ := ih x post (idx + 1) (acc ++ [y])
            (isInst env y elt s).2 hpre2 hx
          refine ⟨heq, hfst, ?_, dl0 ++ dl, ?_⟩
          · rw [hterr, hlen]
          · rw [hdl, hdl0, List.append_assoc]
      | some rv =>
          by_cases ht : truthy rv = true
          · simp only [ht, if_true]
            obtain ⟨heq, hfst, hterr, dl, hdl⟩ := ih x post (idx + 1) (acc ++ [rv])
              { (isInst env y elt s).2 with repl := some (.vbool false) } hpre2 hx
            refine ⟨heq, hfst, ?_, dl0 ++ dl, ?_⟩
            · rw [hterr, hlen]
            · rw [hdl]
              have hfe : ({ (isInst env y elt s).2 with
                  repl := some (Value.vbool false) } : FState).fieldErrors =
                  s.fieldErrors ++ dl0 := hdl0
              rw [hfe, List.append_assoc]
          · simp only [ht, Bool.false_eq_true, if_false]
            obtain ⟨heq, hfst, hterr, dl, hdl⟩ := ih x post (idx + 1) (acc ++ [y])
              (isInst env y elt s).2 hpre2 hx
            refine ⟨heq, hfst, ?_, dl0 ++ dl, ?_⟩
            · rw [hterr, hlen]
            · rw [hdl, hdl0, List.append_assoc]

/-- C5: a value that is not a native list fails a list-typed check with a
plain type error, and for a native list whose first invalid element sits
at index `k`, elements are checked in order up to `k`, everything after
`k` is never examined (the whole check equals the check on the list
truncated just past `k`), and the single list error recorded by this
check carries exactly index `k` and that element's representation and
runtime type (appended last to the field's error list). -/
theorem c5_list_fail_fast :
    (∀ (env : Env) (elt : Ann) (s : FState) (v : Value),
      (∀ items, v ≠ .vlist items) →
      (isInst env v (.listOf elt) s).1 = false ∧
      (isInst env v (.listOf elt) s).2.fieldErrors =
        s.fieldErrors ++ [.basicE (reprOf env v) (pyType v) (.listOf elt) none]) ∧
    (∀ (env : Env) (elt : Ann) (s : FState) (pre : List Value) (x : Value) (post : List Value),
      (∀ y ∈ pre, checkB env y elt = true) → checkB env x elt = false →
      isInst env (.vlist (pre ++ x :: post)) (.listOf elt) s =
        isInst env (.vlist (pre ++ [x])) (.listOf elt) s ∧
      (isInst env (.vlist (pre ++ x :: post)) (.listOf elt) s).1 = false ∧
      ∃ dl, (isInst env (.vlist (pre ++ x :: post)) (.listOf elt) s).2.fieldErrors =
        s.fieldErrors ++ dl ++ [.listE pre.length (reprOf env x) (pyType x) elt]) := by
  constructor
  · intro env elt s v hnl
    cases v with
    | vlist items => exact absurd rfl (hnl items)
    | vint n =>
        simp only [isInst, tAlias_listOf, sAlias_listOf, Bool.not_true, Bool.false_eq_true,
          if_false, if_true, finishAlias]
        exact ⟨by trivial, by trivial⟩
    | vstr s2 =>
        simp only [isInst, tAlias_listOf, sAlias_listOf, Bool.not_true, Bool.false_eq_true,
          if_false, if_true, finishAlias]
        exact ⟨by trivial, by trivial⟩
    | vbool b =>
        simp only [isInst, tAlias_listOf, sAlias_listOf, Bool.not_true, Bool.false_eq_true,
          if_false, if_true, finishAlias]
        exact ⟨by trivial, by trivial⟩
    | vnone =>
        simp only [isInst, tAlias_listOf, sAlias_listOf, Bool.not_true, Bool.false_eq_true,
          if_false, if_true, finishAlias]
        exact ⟨by trivial, by trivial⟩
    | vdict d =>
        simp only [isInst, tAlias_listOf, sAlias_listOf, Bool.not_true, Bool.false_eq_true,
          if_false, if_true, finishAlias]
        exact ⟨by trivial, by trivial⟩
    | vinst R2 flds =>
        simp only [isInst, tAlias_listOf, sAlias_listOf, Bool.not_true, Bool.false_eq_true,
          if_false, if_true, finishAlias]
        exact ⟨by trivial, by trivial⟩
  · intro env elt s pre x post hpre hx
    obtain ⟨heq, hfst, hterr, dl, hdl⟩ := listLoop_first_invalid env elt pre x post 0 []
      { s with typingErr := none } hpre hx
    simp only [isInst, tAlias_listOf, sAlias_listOf, Bool.not_true, Bool.false_eq_true,
      if_false, if_true]
    refine ⟨by rw [heq], ?_, ?_⟩
    · rw [finishAlias_fst]
      exact hfst
    · refine ⟨dl, ?_⟩
      unfold finishAlias
      simp only [hfst, Bool.false_eq_true, if_false, hterr, Nat.zero_add]
      have hfe : ({ s with typingErr := none } : FState).fieldErrors = s.fieldErrors := rfl
      rw [hdl, hfe]

/-! ## Claim C3 — error reporting of a failed union -/

theorem unionLoop_all_fail (env : Env) (v : Value) :
    ∀ (args : List Ann) (s : FState), wfAnnL args = true →
      (∀ a ∈ args, checkB env v a = false) →
      (unionLoop env v args s).1 = false ∧
      s.fieldErrors.length + args.length ≤ (unionLoop env v args s).2.fieldErrors.length := by
  intro args
  induction args with
  | nil =>
      intro s hwf hall
      simp only [unionLoop, List.length_nil]
      exact ⟨by trivial, by omega⟩
  | cons a rest ih =>
      intro s hwf hall
      have hwf2 : wfAnn a = true ∧ wfAnnL rest = true := by
        simp only [wfAnnL, Bool.and_eq_true] at hwf
        exact hwf
      have ha : checkB env v a = false := hall a (List.mem_cons_self a rest)
      have hrest : ∀ a2 ∈ rest, checkB env v a2 = false :=
        fun a2 h2 => hall a2 (List.mem_cons_of_mem a h2)
      simp only [unionLoop]
      rw [isInst_fst_eq, ha]
      simp only [Bool.false_eq_true, if_false]
      have hgrow : s.fieldErrors.length < (isInst env v a s).2.fieldErrors.length := by
        refine isInst_fail_grows (sizeA a) env v a s (Nat.le_refl _) hwf2.1 ?_
        rw [isInst_fst_eq]
        exact ha
      obtain ⟨hfst, hlen⟩ := ih (isInst env v a s).2 hwf2.2 hrest
      refine ⟨hfst, ?_⟩
      simp only [List.length_cons]
      omega

/-- C3 (amended): when a union-typed check fails, at least one error per
failed alternative is appended to the field's error list (the
per-alternative diagnostics); the counterexample shows no union-level
summarizing error is added on top of them. -/
theorem c3_union_failure_errors (env : Env) (v : Value) (args : List Ann) (s : FState)
    (hwf : wfAnn (.union args) = true)
    (hall : ∀ a ∈ args, checkB env v a = false) :
    (isInst env v (.union args) s).1 = false ∧
    ∃ dl, (isInst env v (.union args) s).2.fieldErrors = s.fieldErrors ++ dl ∧
      args.length ≤ dl.length := by
  have hwf2 : 2 ≤ args.length ∧ wfAnnL args = true := by
    simp only [wfAnn, Bool.and_eq_true, decide_eq_true_eq] at hwf
    exact hwf
  obtain ⟨hfst, hlen⟩ := unionLoop_all_fail env v args { s with typingErr := none } hwf2.2 hall
  have hlen2 : s.fieldErrors.length + args.length ≤
      (unionLoop env v args { s with typingErr := none }).2.fieldErrors.length := hlen
  simp only [isInst, tAlias_union, sAlias_union, Bool.not_true, Bool.false_eq_true,
    if_false, if_true]
  obtain ⟨dl, hdl⟩ := unionLoop_errsApp env v args { s with typingErr := none }
  have hdl2 : (unionLoop env v args { s with typingErr := none }).2.fieldErrors =
      s.fieldErrors ++ dl := hdl
  constructor
  · rw [finishAlias_fst]
    exact hfst
  · rcases finishAlias_errsApp (unionLoop env v args { s with typingErr := none }) with
      hc | ⟨e, hc⟩
    · refine ⟨dl, by rw [hc, hdl2], ?_⟩
      have : (unionLoop env v args { s with typingErr := none }).2.fieldErrors.length =
          s.fieldErrors.length + dl.length := by
        rw [hdl2]
        simp
      omega
    · refine ⟨dl ++ [e], by rw [hc, hdl2, List.append_assoc], ?_⟩
      have : (unionLoop env v args { s with typingErr := none }).2.fieldErrors.length =
          s.fieldErrors.length + dl.length := by
        rw [hdl2]
        simp
      simp only [List.length_append, List.length_cons, List.length_nil]
      omega

/-- Record 0 has one union-typed field `u : Union[int, str]`. -/
def envC3 : Env :=
  ⟨fun r => if r = 0 then [⟨"u", .union [.prim .intT, .prim .strT], none⟩] else [],
   fun _ => ("C3R").data⟩

def instC3 : Inst := ⟨0, [("u", .vnone)], .nil⟩

/-- C3 counterexample: validating `u = None` against `Union[int, str]`
fails and records exactly the two per-alternative errors — each
annotated with its alternative — and no error annotated with the union
as a whole, contradicting the claimed guaranteed union-level summarizing
error. -/
theorem c3_counterexample :
    (isValidFn envC3 instC3).1 = false ∧
    (isValidFn envC3 instC3).2.errs = .cons "u"
      [.basicE (reprOf envC3 .vnone) .tnone (.prim .intT) none,
       .basicE (reprOf envC3 .vnone) .tnone (.prim .strT) none] .nil ∧
    FieldErr.errAnn (.basicE (reprOf envC3 .vnone) .tnone (.prim .intT) none) ≠
      .union [.prim .intT, .prim .strT] ∧
    FieldErr.errAnn (.basicE (reprOf envC3 .vnone) .tnone (.prim .strT) none) ≠
      .union [.prim .intT, .prim .strT] := by
  refine ⟨?_, ?_, ?_, ?_⟩
  · simp [isValidFn, runValidation, runFields, isInst, isInstLower, recordCheck, construct,
      unionLoop, listLoop, basicCheck, rawIsInstance, primIsInstance, finishAlias, appendErr,
      envC3, instC3, pyType, truthy, ErrReport.isEmpty]
  · simp [isValidFn, runValidation, runFields, isInst, isInstLower, recordCheck, construct,
      unionLoop, listLoop, basicCheck, rawIsInstance, primIsInstance, finishAlias, appendErr,
      envC3, instC3, pyType, truthy, ErrReport.isEmpty]
  · intro h
    simp only [FieldErr.errAnn] at h
    exact Ann.noConfusion h
  · intro h
    simp only [FieldErr.errAnn] at h
    exact Ann.noConfusion h

/-- C3 witness: the amended theorem applied at the concrete failing
union field. -/
theorem c3_union_failure_errors_witness :
    (isInst envC3 .vnone (.union [.prim .intT, .prim .strT]) ⟨[], none, none⟩).1 = false :=
  (c3_union_failure_errors envC3 .vnone [.prim .intT, .prim .strT] ⟨[], none, none⟩
    (by simp [wfAnn, wfAnnL])
    (by
      intro a ha
      simp only [List.mem_cons, List.mem_singleton] at ha
      rcases ha with rfl | rfl | h
      · simp [checkB, isInst, isInstLower, basicCheck, rawIsInstance, primIsInstance,
          appendErr, pyType]
      · simp [checkB, isInst, isInstLower, basicCheck, rawIsInstance, primIsInstance,
          appendErr, pyType]
      · cases h)).1

/-! ## Claim C1 — unsupported typing aliases -/

/-- C1 (amended): a field annotated with an unsupported `typing` alias
fails validation and a `TypingValidationError` carrying the captured
`TypeError` is appended to that field's error list; the check returns
normally (no exception propagates). -/
theorem c1_unsupported_alias_recorded (env : Env) (v : Value) (s : FState) :
    isInst env v .unsupported s =
      (false, appendErr s (.typingE (reprOf env v) (pyType v) .unsupported
        (some .aliasNotSupported))) := by
  simp [isInst]

/-- Record 0 has one field `d` annotated with the unsupported alias
(`typing.Dict[str, int]`). -/
def envC1 : Env :=
  ⟨fun r => if r = 0 then [⟨"d", .unsupported, none⟩] else [], fun _ => ("C1R").data⟩

def instC1 : Inst := ⟨0, [("d", .vint 1)], .nil⟩

/-- C1 counterexample: validation of an instance whose field is
annotated with an unsupported combinator completes normally (returning
invalid) and the defect *is* recorded as a Field Error in the Error
Report — there is no `UnsupportedTypeError` anywhere in the source, and
nothing propagates to the caller. -/
theorem c1_counterexample :
    (isValidFn envC1 instC1).1 = false ∧
    (isValidFn envC1 instC1).2.errs = .cons "d"
      [.typingE (reprOf envC1 (.vint 1)) .tint .unsupported (some .aliasNotSupported)] .nil := by
  constructor
  · simp [isValidFn, runValidation, runFields, isInst, isInstLower, recordCheck, construct,
      unionLoop, listLoop, basicCheck, rawIsInstance, primIsInstance, finishAlias, appendErr,
      envC1, instC1, pyType, truthy, ErrReport.isEmpty]
  · simp [isValidFn, runValidation, runFields, isInst, isInstLower, recordCheck, construct,
      unionLoop, listLoop, basicCheck, rawIsInstance, primIsInstance, finishAlias, appendErr,
      envC1, instC1, pyType, truthy, ErrReport.isEmpty]

/-! ## Claim C6 — idempotence of `is_valid` fails on the code

Field `x : Union[List[Phone], list]` with value
`[\x7b"phone": "123"\x7d, 5]`: the first alternative partially matches
(the mapping element is converted, leaving the internal
consumed-replacement sentinel `False` in `_replacement__vdc`), then
fails at element 1; the second alternative (`list`) matches the original
value without proposing anything — and `_try_replacing` then writes the
stale `False` into the field.  The first `is_valid` returns `True` and
corrupts the field; the second returns `False`. -/

def envC6 : Env :=
  ⟨fun r =>
      if r = 0 then [⟨"x", .union [.listOf (.record 1), .prim .listT], none⟩]
      else if r = 1 then [⟨"phone", .prim .strT, none⟩]
      else [],
   fun r => if r = 1 then ("Phone").data else ("F").data⟩

def instC6 : Inst :=
  ⟨0, [("x", .vlist [.vdict [("phone", .vstr ("123").data)], .vint 5])], .nil⟩

/-- C6: the concrete run showing `is_valid` is not idempotent: the first
call returns `True` and overwrites the field with the leaked sentinel
`False`; the second call on the unmutated instance returns `False`. -/
theorem c6_is_valid_not_idempotent :
    (isValidFn envC6 instC6).1 = true ∧
    (isValidFn envC6 instC6).2.vals = [("x", .vbool false)] ∧
    (isValidFn envC6 ((isValidFn envC6 instC6).2)).1 = false ∧
    getErrorsFn (isValidFn envC6 instC6).2 = none ∧
    getErrorsFn (isValidFn envC6 ((isValidFn envC6 instC6).2)).2 ≠ none := by
  refine ⟨?_, ?_, ?_, ?_, ?_⟩
  · simp [isValidFn, runValidation, runFields, isInst, isInstLower, recordCheck, construct,
      unionLoop, listLoop, basicCheck, rawIsInstance, primIsInstance, finishAlias, appendErr,
      envC6, instC6, pyType, truthy, ErrReport.isEmpty]
  · simp [isValidFn, runValidation, runFields, isInst, isInstLower, recordCheck, construct,
      unionLoop, listLoop, basicCheck, rawIsInstance, primIsInstance, finishAlias, appendErr,
      envC6, instC6, pyType, truthy, ErrReport.isEmpty]
  · simp [isValidFn, runValidation, runFields, isInst, isInstLower, recordCheck, construct,
      unionLoop, listLoop, basicCheck, rawIsInstance, primIsInstance, finishAlias, appendErr,
      envC6, instC6, pyType, truthy, ErrReport.isEmpty]
  · simp [isValidFn, runValidation, runFields, isInst, isInstLower, recordCheck, construct,
      unionLoop, listLoop, basicCheck, rawIsInstance, primIsInstance, finishAlias, appendErr,
      envC6, instC6, pyType, truthy, ErrReport.isEmpty, getErrorsFn]
  · simp [isValidFn, runValidation, runFields, isInst, isInstLower, recordCheck, construct,
      unionLoop, listLoop, basicCheck, rawIsInstance, primIsInstance, finishAlias, appendErr,
      envC6, instC6, pyType, truthy, ErrReport.isEmpty, getErrorsFn]

/-! ## Claim C2 — nested-type discovery on cyclic and acyclic graphs -/

theorem seqCalls_some_of_forall (f : RecordId → Option (Finset RecordId))
    (g : RecordId → Finset RecordId) :
    ∀ (l : List RecordId), (∀ a ∈ l, f a = some (g a)) → seqCalls f l = some (l.map g) := by
  intro l
  induction l with
  | nil => intro h; rfl
  | cons a rest ih =>
      intro h
      have ha := h a (List.mem_cons_self a rest)
      have hrest := ih fun a2 h2 => h a2 (List.mem_cons_of_mem a h2)
      simp only [seqCalls, ha, hrest, List.map_cons]

theorem mem_foldl_union (x : RecordId) :
    ∀ (l : List (Finset RecordId)) (init : Finset RecordId),
      (x ∈ l.foldl (fun acc s2 => acc ∪ s2) init) ↔ x ∈ init ∨ ∃ s2 ∈ l, x ∈ s2 := by
  intro l
  induction l with
  | nil => intro init; simp
  | cons a rest ih =>
      intro init
      rw [List.foldl_cons, ih]
      simp only [Finset.mem_union, List.mem_cons]
      constructor
      · rintro ((hx | hx) | ⟨s2, hs2, hx⟩)
        · exact Or.inl hx
        · exact Or.inr ⟨a, Or.inl rfl, hx⟩
        · exact Or.inr ⟨s2, Or.inr hs2, hx⟩
      · rintro (hx | ⟨s2, (rfl | hs2), hx⟩)
        · exact Or.inl (Or.inl hx)
        · exact Or.inl (Or.inr hx)
        · exact Or.inr ⟨s2, hs2, hx⟩

/-- C2 (amended): on a record graph that admits a rank strictly
decreasing along direct record references (an acyclic reference graph),
`get_nested_validated_dc` terminates — a recursion depth of
`rank R + 1` suffices — and returns exactly the deduplicated set of all
record types transitively reachable from `R`'s field annotations. -/
theorem c2_ranked_discovery (env : Env) (rank : RecordId → Nat)
    (hrank : ∀ R r, r ∈ localDC env R → rank r < rank R) :
    ∀ (n : Nat) (R : RecordId), rank R < n →
      ∃ s2, nestedFuel env n R = some s2 ∧ ∀ x, x ∈ s2 ↔ ReachDC env R x := by
  intro n
  induction n with
  | zero => intro R h; omega
  | succ n ih =>
      intro R hR
      have hrec : ∀ r ∈ (localDC env R).sort (· ≤ ·),
          ∃ s2, nestedFuel env n r = some s2 ∧ ∀ x, x ∈ s2 ↔ ReachDC env r x := by
        intro r hr
        have hmem : r ∈ localDC env R := (Finset.mem_sort _).mp hr
        exact ih r (by have := hrank R r hmem; omega)
      have hg : ∀ r ∈ (localDC env R).sort (· ≤ ·),
          nestedFuel env n r = some ((nestedFuel env n r).getD ∅) := by
        intro r hr
        obtain ⟨s2, hs2, _⟩ := hrec r hr
        rw [hs2]
        rfl
      have hmap := seqCalls_some_of_forall (nestedFuel env n)
        (fun r => (nestedFuel env n r).getD ∅) ((localDC env R).sort (· ≤ ·)) hg
      have heq : nestedFuel env (n + 1) R =
          match seqCalls (nestedFuel env n) ((localDC env R).sort (· ≤ ·)) with
          | none => none
          | some results => some (results.foldl (fun acc s2 => acc ∪ s2) (localDC env R)) := rfl
      refine ⟨(((localDC env R).sort (· ≤ ·)).map fun r => (nestedFuel env n r).getD ∅).foldl
        (fun acc s2 => acc ∪ s2) (localDC env R), ?_, ?_⟩
      · rw [heq, hmap]
      · intro x
        rw [mem_foldl_union]
        constructor
        · rintro (hx | ⟨s2, hs2, hx⟩)
          · exact ReachDC.base hx
          · rw [List.mem_map] at hs2
            obtain ⟨r, hr, rfl⟩ := hs2
            have hmem : r ∈ localDC env R := (Finset.mem_sort _).mp hr
            obtain ⟨s3, hs3, hchar⟩ := hrec r hr
            rw [hs3] at hx
            have hx2 : x ∈ s3 := by simpa using hx
            exact ReachDC.step hmem (hchar x |>.mp hx2)
        · intro h
          cases h with
          | base hm => exact Or.inl hm
          | step hm hreach =>
              rename_i r2
              refine Or.inr ⟨(nestedFuel env n r2).getD ∅, ?_, ?_⟩
              · rw [List.mem_map]
                exact ⟨r2, (Finset.mem_sort _).mpr hm, rfl⟩
              · obtain ⟨s3, hs3, hchar⟩ := hrec r2 ((Finset.mem_sort _).mpr hm)
                rw [hs3]
                simpa using (hchar _).mpr hreach

/-- The cyclic two-record graph: record 0 references record 1 and
record 1 references record 0 (`A.b : B`, `B.a : A`). -/
def envC2AB : Env :=
  ⟨fun r =>
      match r with
      | 0 => [⟨"b", .record 1, none⟩]
      | 1 => [⟨"a", .record 0, none⟩]
      | _ => [],
   fun r => match r with | 0 => ("A").data | 1 => ("B").data | _ => ("Z").data⟩

theorem c2_cycle_no_fuel :
    ∀ n : Nat, nestedFuel envC2AB n 0 = none ∧ nestedFuel envC2AB n 1 = none := by
  intro n
  induction n with
  | zero => exact ⟨rfl, rfl⟩
  | succ n ih =>
      have hloc0 : localDC envC2AB 0 = {1} := by
        simp [localDC, envC2AB, fieldDC]
      have hloc1 : localDC envC2AB 1 = {0} := by
        simp [localDC, envC2AB, fieldDC]
      have heq0 : nestedFuel envC2AB (n + 1) 0 =
          match seqCalls (nestedFuel envC2AB n) ((localDC envC2AB 0).sort (· ≤ ·)) with
          | none => none
          | some results =>
              some (results.foldl (fun acc s2 => acc ∪ s2) (localDC envC2AB 0)) := rfl
      have heq1 : nestedFuel envC2AB (n + 1) 1 =
          match seqCalls (nestedFuel envC2AB n) ((localDC envC2AB 1).sort (· ≤ ·)) with
          | none => none
          | some results =>
              some (results.foldl (fun acc s2 => acc ∪ s2) (localDC envC2AB 1)) := rfl
      constructor
      · rw [heq0, hloc0, Finset.sort_singleton]
        simp [seqCalls, ih.2]
      · rw [heq1, hloc1, Finset.sort_singleton]
        simp [seqCalls, ih.1]

/-- C2 counterexample: on the cyclic graph `A ↔ B` the discovery
recursion completes within *no* finite depth — it has no visited-type
tracking, and the Python call recurses until the stack overflows. -/
theorem c2_counterexample :
    ¬ ∃ (n : Nat) (s2 : Finset RecordId), nestedFuel envC2AB n 0 = some s2 := by
  rintro ⟨n, s2, h⟩
  have h0 := (c2_cycle_no_fuel n).1
  rw [h0] at h
  exact Option.noConfusion h

/-- The acyclic graph for the witness: record 0 references record 1,
record 1 references nothing. -/
def envC2Acyc : Env :=
  ⟨fun r =>
      match r with
      | 0 => [⟨"b", .record 1, none⟩]
      | _ => [],
   fun _ => ("W").data⟩

def rankC2 : RecordId → Nat := fun r => match r with | 0 => 1 | _ => 0

/-- C2 witness: the amended theorem applied to the concrete acyclic
graph at depth 2. -/
theorem c2_ranked_discovery_witness :
    ∃ s2, nestedFuel envC2Acyc 2 0 = some s2 ∧ ∀ x, x ∈ s2 ↔ ReachDC envC2Acyc 0 x := by
  refine c2_ranked_discovery envC2Acyc rankC2 ?_ 2 0 (by simp [rankC2])
  intro R r hmem
  match R with
  | 0 =>
      have hloc : localDC envC2Acyc 0 = {1} := by
        simp [localDC, envC2Acyc, fieldDC]
      rw [hloc] at hmem
      have : r = 1 := Finset.mem_singleton.mp hmem
      subst this
      simp [rankC2]
  | 1 =>
      have hloc : localDC envC2Acyc 1 = ∅ := by
        simp [localDC, envC2Acyc]
      rw [hloc] at hmem
      exact absurd hmem (Finset.not_mem_empty r)
  | (m + 2) =>
      have hloc : localDC envC2Acyc (m + 2) = ∅ := by
        simp [localDC, envC2Acyc]
      rw [hloc] at hmem
      exact absurd hmem (Finset.not_mem_empty r)

end VDC
